import Mathlib

/-!
Verification of the fluxor-blob storage engine against its specification.

Shallow embedding conventions:
* byte strings (C++ `std::string`, `std::vector<unsigned char>`) are `List Nat`
  with each byte `< 256`;
* `std::string` comparison (`operator<`, memcmp semantics on unsigned bytes)
  is the lexicographic order `ltb`;
* the filesystem under a bucket data directory is a list of file records
  (bucket, shard, filename, content); `readdir` enumeration order is the list
  order (the real order is unspecified, and all statements below are
  order-insensitive: sets, maxima, sorted prefixes);
* fallible C++ paths (exceptions) are `Option`;
* machine integers are `Nat` with explicit `% 2^64` / `% 2^32` where the
  C++ arithmetic wraps.
-/

namespace Fluxor

/-- Byte strings: each element is one byte of a C++ string. -/
abbrev Bytes := List Nat

/-- Lexicographic strict order on byte strings, i.e. `std::string::operator<`
(memcmp semantics: bytewise unsigned compare, shorter prefix first). -/
def ltb : Bytes → Bytes → Bool
  | [], [] => false
  | [], _ :: _ => true
  | _ :: _, [] => false
  | a :: as, b :: bs => if a < b then true else if b < a then false else ltb as bs

/-- `a ≥ b` on byte strings, the relation used for descending sorts. -/
def geRel (a b : Bytes) : Prop := ltb a b = false

/-- `a ≤ b` on byte strings, the relation of `std::map` ascending iteration. -/
def leRel (a b : Bytes) : Prop := ltb b a = false

instance : DecidableRel geRel := fun a b => instDecidableEqBool (ltb a b) false

instance : DecidableRel leRel := fun a b => instDecidableEqBool (ltb b a) false

/-- `p` is a prefix of `k` (the `compare(0, p.size(), p) == 0` test and
`fname.find(prefix) == 0` test). -/
def isPre : Bytes → Bytes → Bool
  | [], _ => true
  | _ :: _, [] => false
  | a :: as, b :: bs => a == b && isPre as bs

end Fluxor

namespace DynIx

/-!
Dynamic indexer (`src/blob_indexer.cpp`).  The ordered view `sortedIndex_` is
a `std::map`, i.e. a strictly ascending list of keys.  `keysWithPrefix` does
`lower_bound(prefix)` and then walks forward while the prefix matches.
-/

open Fluxor

/-- `FastBlobIndexer::keysWithPrefix` over the ordered key list `keys`
(ascending): `lower_bound(prefix)` = drop all keys `< prefix`; then collect
while `compare(0, prefix.size(), prefix) == 0`, breaking at the first
mismatch. -/
def keysWithPre (keys : List Bytes) (p : Bytes) : List Bytes :=
  (keys.dropWhile (fun k => ltb k p)).takeWhile (fun k => isPre p k)

/-- `BlobMeta`: `{ size : u64, modTime : u64 }`. -/
structure Meta where
  size : Nat
  modTime : Nat
deriving DecidableEq

/-- The hash view `hashIndex_` (an `std::unordered_map`): an association list
with pairwise-distinct keys, in the container's (arbitrary) iteration order. -/
abbrev IndexState := List (Bytes × Meta)

/-- The ordered view rebuilt from the hash view (keys of the `std::map`,
ascending). -/
def orderedKeys (m : IndexState) : List Bytes :=
  List.insertionSort leRel (m.map Prod.fst)

/-- Decimal rendering, fuel-indexed for structural recursion (any fuel `> n`
gives the true digit string; see `natDigitsAux_congr`). -/
def natDigitsAux : Nat → Nat → List Nat
  | 0, _ => []
  | fuel + 1, n => if n < 10 then [48 + n] else natDigitsAux fuel (n / 10) ++ [48 + n % 10]

/-- Decimal rendering of an unsigned integer (the `operator<<` output). -/
def natDigits (n : Nat) : List Nat := natDigitsAux (n + 1) n

/-- `FastBlobIndexer::saveToFile`: one line per entry,
`key ++ TAB ++ size ++ TAB ++ modTime ++ NL`, in iteration order. -/
def saveBytes (m : IndexState) : List Nat :=
  m.foldr (fun e acc => e.1 ++ 9 :: natDigits e.2.size ++ 9 :: natDigits e.2.modTime ++ 10 :: acc) []

/-- `std::getline` loop body, fuel-indexed for structural recursion (any fuel
`≥` the stream length gives the true line list; see `splitLinesAux_congr`). -/
def splitLinesAux : Nat → List Nat → List (List Nat)
  | _, [] => []
  | 0, _ :: _ => []
  | fuel + 1, c :: rest =>
    ((c :: rest).takeWhile (fun x => !(x == 10))) ::
      splitLinesAux fuel ((c :: rest).drop (((c :: rest).takeWhile (fun x => !(x == 10))).length + 1))

/-- `std::getline` decomposition of a byte stream into lines (the terminating
newline is consumed; a final unterminated segment is still a line; an empty
stream has no lines). -/
def splitLines (l : List Nat) : List (List Nat) := splitLinesAux l.length l

/-- One step of decimal accumulation, as `std::stoull` computes the value. -/
def valStep (acc d : Nat) : Nat := acc * 10 + (d - 48)

/-- `std::stoull` on the stored substring: parse the leading run of decimal
digits; no digits → `invalid_argument` (`none`); value `≥ 2^64` →
`out_of_range` (`none`).  (The whitespace/sign prefix handling of the real
`stoull` is never exercised: the parsed substrings start right after a tab.) -/
def stoullModel (s : List Nat) : Option Nat :=
  if (s.takeWhile (fun c => 48 ≤ c && c ≤ 57)).isEmpty then none
  else if (s.takeWhile (fun c => 48 ≤ c && c ≤ 57)).foldl valStep 0 < 2 ^ 64 then
    some ((s.takeWhile (fun c => 48 ≤ c && c ≤ 57)).foldl valStep 0)
  else none

/-- `FastBlobIndexer::loadFromFile`, one line: find the first tab (absent →
the line is skipped), the second tab (absent → skipped), then `stoull` both
numeric substrings (outer `none` = exception escaping `loadFromFile`). -/
def lineParse (line : List Nat) : Option (Option (Bytes × Meta)) :=
  match line.findIdx? (fun c => c == 9) with
  | none => some none
  | some t1 =>
    match (line.drop (t1 + 1)).findIdx? (fun c => c == 9) with
    | none => some none
    | some t2 =>
      match stoullModel ((line.drop (t1 + 1)).take t2),
            stoullModel ((line.drop (t1 + 1)).drop (t2 + 1)) with
      | some s, some mt => some (some (line.take t1, ⟨s, mt⟩))
      | _, _ => none

/-- `hashIndex_[key] = meta`: overwrite in place, or append a fresh entry. -/
def upsert (m : IndexState) (k : Bytes) (v : Meta) : IndexState :=
  if m.any (fun e => e.1 == k) then m.map (fun e => if e.1 == k then (k, v) else e)
  else m ++ [(k, v)]

/-- `FastBlobIndexer::loadFromFile` over the snapshot bytes: `none` models an
exception escaping the load (a `stoull` failure), `some m` a `true` return
with hash view `m`. -/
def loadBytes (file : List Nat) : Option IndexState :=
  (splitLines file).foldlM
    (fun m line =>
      match lineParse line with
      | none => none
      | some none => some m
      | some (some kv) => some (upsert m kv.1 kv.2))
    []

end DynIx

namespace LRU

/-!
LRU byte cache (`src/blob_storage_io.cpp`).  The C++ state is a recency list
`order_` (front = most recent), a hash map `map_` from key to (shared payload,
list iterator), and `currentBytes_`; the two containers always hold the same
keys, so the state is modelled as one entry list in recency order plus the
byte counter.
-/

open Fluxor

/-- One cached entry: key and the shared payload (`nullptr` = `none`,
counted as 0 bytes). -/
structure CacheEntry where
  key : Bytes
  data : Option (List Nat)
deriving DecidableEq

/-- `data ? data->size() : 0`. -/
def entSize (e : CacheEntry) : Nat :=
  match e.data with
  | none => 0
  | some v => v.length

/-- Cache state: entries in recency order (most recent first) and
`currentBytes_`. -/
structure CacheState where
  entries : List CacheEntry
  bytes : Nat
deriving DecidableEq

/-- `LRUCache::invalidate`: if the key is present, subtract its size and
remove it from both views. -/
def invalidate (st : CacheState) (k : Bytes) : CacheState :=
  match st.entries.find? (fun e => e.key == k) with
  | none => st
  | some e => ⟨st.entries.filter (fun e2 => !(e2.key == k)), st.bytes - entSize e⟩

/-- `LRUCache::evictIfNeeded` body on the reversed recency list (oldest
first): pop the oldest while `currentBytes_ > maxBytes_`. -/
def evictAuxR (B : Nat) : List CacheEntry → Nat → (List CacheEntry × Nat)
  | [], bytes => ([], bytes)
  | e :: rest, bytes =>
    if bytes > B then evictAuxR B rest (bytes - entSize e) else (e :: rest, bytes)

/-- `LRUCache::evictIfNeeded`. -/
def evict (B : Nat) (st : CacheState) : CacheState :=
  ⟨(evictAuxR B st.entries.reverse st.bytes).1.reverse,
   (evictAuxR B st.entries.reverse st.bytes).2⟩

/-- `LRUCache::put`: invalidate any existing entry for the key, push the new
entry at the front, add its size, then evict from the back as needed. -/
def putLRU (B : Nat) (st : CacheState) (k : Bytes) (d : Option (List Nat)) : CacheState :=
  evict B ⟨⟨k, d⟩ :: (invalidate st k).entries, (invalidate st k).bytes + entSize ⟨k, d⟩⟩

/-- `LRUCache::get` observed through the key set: the payload if present
(the move-to-front recency update does not change the key set). -/
def lookupLRU (st : CacheState) (k : Bytes) : Option (Option (List Nat)) :=
  (st.entries.find? (fun e => e.key == k)).map CacheEntry.data

/-- Run a sequence of puts against an initially empty cache of budget `B`. -/
def runPuts (B : Nat) (ops : List (Bytes × Option (List Nat))) : CacheState :=
  ops.foldl (fun st op => putLRU B st op.1 op.2) ⟨[], 0⟩

/-- Total payload bytes of a list of entries. -/
def sumSizes (l : List CacheEntry) : Nat := (l.map entSize).sum

/-- The longest prefix whose total payload size fits in the budget
(prefix sums are monotone, so the greedy cut is the longest prefix). -/
def takeBudget (B : Nat) : List CacheEntry → List CacheEntry
  | [] => []
  | e :: rest => if entSize e ≤ B then e :: takeBudget (B - entSize e) rest else []

/-- Keep only the first occurrence of each key. -/
def dedupKeys : List CacheEntry → List CacheEntry
  | [] => []
  | e :: rest => e :: (dedupKeys rest).filter (fun x => !(x.key == e.key))

/-- The inserted entries in most-recently-used-first order, keeping each
key's latest payload. -/
def mruOrder (ops : List (Bytes × Option (List Nat))) : List CacheEntry :=
  dedupKeys (ops.reverse.map (fun p => ⟨p.1, p.2⟩))

end LRU

namespace Store

/-!
Blob store (`src/blob_storage.cpp`).  The filesystem under the root is a
list of file records; a path is the triple (bucket, shard, filename) under
`<root>/<bucket>/data/`.  `writeFileAtomic` replaces the file at a path,
`unlink` removes it, `readdir` enumerates records in list order.
-/

open Fluxor

/-- One lowercase hex digit (`std::hex` with lowercase letters). -/
def hexDigit (n : Nat) : Nat := if n < 10 then 48 + n else 87 + n

/-- `BlobStorage::hexEncode`: two lowercase hex digits per byte, high nibble
first (`unsigned char` cast = `% 256`). -/
def hexEncode (s : Bytes) : Bytes :=
  s.foldr (fun b acc => hexDigit (b % 256 / 16) :: hexDigit (b % 256 % 16) :: acc) []

/-- `hexVal`: value of one hex digit character, `none` for non-hex. -/
def hexVal (c : Nat) : Option Nat :=
  if 48 ≤ c ∧ c ≤ 57 then some (c - 48)
  else if 97 ≤ c ∧ c ≤ 102 then some (c - 87)
  else if 65 ≤ c ∧ c ≤ 70 then some (c - 55)
  else none

/-- `BlobStorage::hexDecode`: odd length or a non-hex digit throws
(`none`). -/
def hexDecode : Bytes → Option Bytes
  | [] => some []
  | [_] => none
  | hi :: lo :: rest =>
    match hexVal hi, hexVal lo, hexDecode rest with
    | some h, some l, some r => some ((h * 16 + l) :: r)
    | _, _, _ => none

/-- `key.find("__") != npos` on the decoded key bytes. -/
def hasDunder : Bytes → Bool
  | [] => false
  | [_] => false
  | a :: b :: rest => (a == 95 && b == 95) || hasDunder (b :: rest)

/-- Shard directory name: first two hex chars, or `"zz"` when the hex string
is shorter than two characters. -/
def shardOf (hex : Bytes) : Bytes := if hex.length ≥ 2 then hex.take 2 else [122, 122]

/-- Versioned filename: `hex(key)` alone, or `hex(key) ++ "__" ++ versionId`
(`BlobStorage::pathForKey`). -/
def fnameFor (key vid : Bytes) : Bytes :=
  if vid.isEmpty then hexEncode key else hexEncode key ++ 95 :: 95 :: vid

/-- One file in a bucket's data tree. -/
structure FileRec where
  bucket : Bytes
  shard : Bytes
  fname : Bytes
  content : Bytes
deriving DecidableEq

/-- The filesystem state: the files under the root, in `readdir` order. -/
abbrev FS := List FileRec

/-- Path equality test. -/
def matchPath (b sh fn : Bytes) (f : FileRec) : Bool :=
  f.bucket == b && f.shard == sh && f.fname == fn

/-- `unlink`: remove the file at a path (no-op when absent). -/
def delFile (s : FS) (b sh fn : Bytes) : FS :=
  s.filter (fun f => !(matchPath b sh fn f))

/-- `writeFileAtomic`: atomically replace (or create) the file at a path. -/
def setFile (s : FS) (b sh fn content : Bytes) : FS :=
  delFile s b sh fn ++ [⟨b, sh, fn, content⟩]

/-- Read the file at a path (`none` = stat/open failure). -/
def fileGet (s : FS) (b sh fn : Bytes) : Option Bytes :=
  (s.find? (matchPath b sh fn)).map FileRec.content

/-- `BlobStorage::listVersions` filename test: the bare hex name is the
unversioned member (version `""`), a `hex ++ "__"` prefix yields the
version-id tail, anything else is skipped. -/
def versionFromFname (hex fn : Bytes) : Option Bytes :=
  if fn == hex then some []
  else if isPre (hex ++ [95, 95]) fn then some (fn.drop (hex.length + 2))
  else none

/-- `BlobStorage::listVersions`: scan the key's shard directory. -/
def listVersions (s : FS) (b key : Bytes) : List Bytes :=
  (s.filter (fun f => f.bucket == b && f.shard == shardOf (hexEncode key))).filterMap
    (fun f => versionFromFname (hexEncode key) f.fname)

/-- `BlobStorage::getLatestVersionId`: `std::max_element` under `<`, or `""`
when no versions exist. -/
def maxVersion : List Bytes → Bytes
  | [] => []
  | v :: vs => vs.foldl (fun a b => if ltb a b then b else a) v

/-- `BlobStorage::put`: write atomically, then sort the surviving versions
descending and unlink every version beyond the third. -/
def putOp (s : FS) (b key data vid : Bytes) : FS :=
  ((List.insertionSort geRel
      (listVersions (setFile s b (shardOf (hexEncode key)) (fnameFor key vid) data)
        b key)).drop 3).foldl
    (fun st v => delFile st b (shardOf (hexEncode key)) (fnameFor key v))
    (setFile s b (shardOf (hexEncode key)) (fnameFor key vid) data)

/-- `BlobStorage::get`: resolve an empty version id to the latest version,
then read the file (`none` = `Key not found`). -/
def getOp (s : FS) (b key vid : Bytes) : Option Bytes :=
  fileGet s b (shardOf (hexEncode key))
    (fnameFor key (if vid.isEmpty then maxVersion (listVersions s b key) else vid))

/-- `BlobStorage::sizeOf`: `fileSize` of the resolved path. -/
def sizeOfOp (s : FS) (b key vid : Bytes) : Option Nat :=
  (fileGet s b (shardOf (hexEncode key))
    (fnameFor key (if vid.isEmpty then maxVersion (listVersions s b key) else vid))).map
    List.length

/-- `BlobStorage::exists`: `listVersions` non-empty. -/
def existsOp (s : FS) (b key : Bytes) : Bool := !(listVersions s b key).isEmpty

/-- `BlobStorage::list`: hex-decode every filename in the bucket's shard
directories; skip undecodable names and decoded keys containing `"__"`. -/
def listOp (s : FS) (b : Bytes) : List Bytes :=
  s.filterMap (fun f =>
    if f.bucket == b then
      match hexDecode f.fname with
      | some key => if hasDunder key then none else some key
      | none => none
    else none)

/-- `BlobStorage::remove`: a non-empty version id unlinks exactly that
version; an empty one unlinks every version of the key. -/
def removeOp (s : FS) (b key vid : Bytes) : FS :=
  if vid.isEmpty then
    (listVersions s b key).foldl
      (fun st v => delFile st b (shardOf (hexEncode key)) (fnameFor key v)) s
  else delFile s b (shardOf (hexEncode key)) (fnameFor key vid)

/-- States reachable through the store API from an empty root. -/
inductive Reachable : FS → Prop
  | empty : Reachable []
  | put {s : FS} (b key data vid : Bytes) : Reachable s → Reachable (putOp s b key data vid)
  | rem {s : FS} (b key vid : Bytes) : Reachable s → Reachable (removeOp s b key vid)

/-- Well-formed filesystem: pairwise-distinct paths. -/
def WF (s : FS) : Prop :=
  List.Pairwise (fun f g => ¬(f.bucket = g.bucket ∧ f.shard = g.shard ∧ f.fname = g.fname)) s

/-- What one file record contributes to `listVersions b k` (proof view of the
filter-then-extract scan). -/
def contrib (b k : Bytes) (f : FileRec) : Option Bytes :=
  if f.bucket == b && f.shard == shardOf (hexEncode k) then
    versionFromFname (hexEncode k) f.fname
  else none

/-- No file is named `hex(key) ++ "__"` with an empty version tail: the store
API never creates such a name (`put` with an empty id writes the bare hex
name), and with it `versionFromFname` inverts uniquely. -/
def NoJunk (s : FS) : Prop := ∀ f ∈ s, ∀ k : Bytes, f.fname ≠ hexEncode k ++ [95, 95]

end Store

namespace StaticIx

open Fluxor

/-- 64-bit FNV-1a (`fnv1a` in the challenge source, `std::size_t`
wraparound): the 8-byte unrolled loop and the byte tail apply the same
per-byte step, so the hash is a left fold of that step
(`static_cast<unsigned char>` = `% 256`). -/
def fnv1a (key : Bytes) : Nat :=
  key.foldl (fun h b => ((h ^^^ (b % 256)) * 1099511628211) % 2 ^ 64) 14695981039346656037

/-- Arena capacity chosen in `main`: `n * 40 + 4 * 1024 * 1024`. -/
def arenaCapacity (n : Nat) : Nat := n * 40 + 4 * 1024 * 1024

/-- One parsed input record (`ParsedBlob` after the parse loop). -/
structure PBlob where
  key : Bytes
  size : Nat
  offset : Nat
deriving DecidableEq

/-- The arena-copy loop: each record's key is copied with
`Arena::alloc(key, keyLen)`, which fetch-adds `keyLen + 1` to the offset and
returns null (`none`) when the new offset exceeds the capacity; `main` stores
the result back into the record with no null check. Allocation order is
modelled as record order; whether a given allocation succeeds depends only on
the running total, which is order-invariant. -/
def copyKeys (cap : Nat) : List PBlob → Nat → List (Option Bytes × Nat × Nat)
  | [], _ => []
  | b :: rest, off =>
    (if off + b.key.length + 1 > cap then none else some b.key, b.size, b.offset) ::
      copyKeys cap rest (off + b.key.length + 1)

/-- The `FastHashMap` constructor's sizing loop: `capacity_ = 1; while
(capacity_ < cap * 2) capacity_ <<= 1`. The fuel argument only bounds the
iteration count so that the definition is structural; `computeCapacity`
supplies enough for the loop to run to its exit condition. -/
def capAux (target : Nat) : Nat → Nat → Nat
  | 0, c => c
  | fuel + 1, c => if c < target then capAux target fuel (c * 2) else c

/-- `FastHashMap(n)` capacity: the sizing loop with target `n * 2`. -/
def computeCapacity (n : Nat) : Nat := capAux (n * 2) (n * 2 + 1) 1

/-- One stored slot (`BlobEntry32`): the arena key pointer (modelled as the
copied key bytes; null = the slot is empty, so an occupied slot is `some`),
`keyLen`, the low 32 bits of the 64-bit hash, size, offset. -/
structure Entry where
  key : Bytes
  keyLen : Nat
  hash32 : Nat
  size : Nat
  offset : Nat
deriving DecidableEq

/-- The hash table: `capacity_`, `mask_ = capacity_ - 1`, and the slot
array. -/
structure Table where
  capacity : Nat
  mask : Nat
  entries : List (Option Entry)
deriving DecidableEq

/-- The `FastHashMap` constructor: sized slot array, all slots empty. -/
def mkTable (n : Nat) : Table :=
  ⟨computeCapacity n, computeCapacity n - 1, List.replicate (computeCapacity n) none⟩

/-- The probe loop of `FastHashMap::insert`: `while (entries_[idx].key) idx =
(idx + 1) & mask_;` then store into the empty slot. The C++ loop is unbounded;
with fuel equal to the capacity it visits every slot of the probe cycle
(period `capacity`), so `none` (fuel exhausted) is exactly the case in which
the loop never terminates. -/
def insertAux (mask : Nat) (e : Entry) (es : List (Option Entry)) :
    Nat → Nat → Option (List (Option Entry))
  | 0, _ => none
  | fuel + 1, idx =>
    match es.getD idx none with
    | none => some (es.set idx (some e))
    | some _ => insertAux mask e es fuel ((idx + 1) &&& mask)

/-- `FastHashMap::insert`: hash the key, store
`{key, keyLen, lower-32(h), size, offset}` at the first empty slot probed
from `h & mask_`. -/
def insertOp (t : Table) (key : Bytes) (size offset : Nat) : Option Table :=
  (insertAux t.mask ⟨key, key.length, fnv1a key % 2 ^ 32, size, offset⟩ t.entries
      t.capacity (fnv1a key &&& t.mask)).map
    (fun es => ⟨t.capacity, t.mask, es⟩)

/-- The probe loop of `FastHashMap::find`: at an occupied slot the 32-bit tag
and the length are compared first, and only then the byte comparison
(`simd_memeq` over `keyLen` bytes; a stored key holds exactly `keyLen`
bytes, so with equal lengths it is equality of the key strings); an empty
slot ends the search with "not found". Fuel as in `insertAux`. -/
def findAux (mask : Nat) (key : Bytes) (h32 : Nat) (es : List (Option Entry)) :
    Nat → Nat → Option (Option Entry)
  | 0, _ => none
  | fuel + 1, idx =>
    match es.getD idx none with
    | none => some none
    | some e =>
      if e.hash32 == h32 && e.keyLen == key.length && e.key == key then some (some e)
      else findAux mask key h32 es fuel ((idx + 1) &&& mask)

/-- `FastHashMap::find` with the precomputed 64-bit hash of the key (the
query loop of `main` precomputes `fnv1a` at parse time). -/
def findOp (t : Table) (key : Bytes) : Option (Option Entry) :=
  findAux t.mask key (fnv1a key % 2 ^ 32) t.entries t.capacity (fnv1a key &&& t.mask)

/-- Outcome of the build phase of `main`: a built table, a null-pointer
dereference, or a non-terminating insert probe loop. -/
inductive BuildRes where
  | ok (t : Table)
  | nullDeref
  | hang
deriving DecidableEq

/-- The insert loop of `main`: `hm.insert(blobs[i].key, ...)` with no check
on the copied key pointer — a null key from a failed arena allocation is
passed straight into `insert`, whose `fnv1a(key, keyLen)` dereferences it
(`nullDeref`). -/
def buildAux : Table → List (Option Bytes × Nat × Nat) → BuildRes
  | t, [] => .ok t
  | _, (none, _, _) :: _ => .nullDeref
  | t, (some k, sz, off) :: rest =>
    match insertOp t k sz off with
    | some t2 => buildAux t2 rest
    | none => .hang

/-- The build phase of `main`: size the table for `N` records, copy the keys
through the arena, insert every record. -/
def build (rs : List PBlob) : BuildRes :=
  buildAux (mkTable rs.length) (copyKeys (arenaCapacity rs.length) rs 0)

/-- One output line of the query loop: `"<size> <offset>\n"` or
`"NOTFOUND\n"`. -/
inductive Ans where
  | found (size offset : Nat)
  | notfound
deriving DecidableEq

/-- The query loop of `main`: each query is answered by `find` (the prefetch
does not change results); `none` from `findAux` is a non-terminating probe
loop. -/
def answers (t : Table) (qs : List Bytes) : Option (List Ans) :=
  qs.mapM (fun q => (findOp t q).map fun r =>
    match r with
    | some e => Ans.found e.size e.offset
    | none => Ans.notfound)

/-- The whole pipeline after parsing: build the table, then answer the
queries in input order. -/
def runPipeline (rs : List PBlob) (qs : List Bytes) : Option (List Ans) :=
  match build rs with
  | .ok t => answers t qs
  | _ => none

/-- The answer P7 of the spec expects for one query: the `(size, offset)`
ingested for the key, or `NOTFOUND` (stated from the spec's words, to be
compared with the pipeline's output). -/
def expectedAns (rs : List PBlob) (q : Bytes) : Ans :=
  match rs.find? (fun r => r.key == q) with
  | some r => .found r.size r.offset
  | none => .notfound

/-- The entry `insert` stores for a record whose key was copied intact. -/
def mkEntry (k : Bytes) (sz off : Nat) : Entry :=
  ⟨k, k.length, fnv1a k % 2 ^ 32, sz, off⟩

/-- Number of occupied slots. -/
def occCount (es : List (Option Entry)) : Nat := es.countP (fun o => o.isSome)

/-- Whether a build succeeded (`main` reaches the query phase). -/
def isOk : BuildRes → Bool
  | .ok _ => true
  | _ => false

/-- The load factor of a built table is strictly below one half
(`2 * occupied < capacity`); `false` when the build did not finish. -/
def loadUnderHalf : BuildRes → Bool
  | .ok t => 2 * occCount t.entries < t.capacity
  | _ => false

/-- Total number of arena bytes the records' keys consume (each `alloc`
fetch-adds `keyLen + 1`). -/
def sumCost (rs : List PBlob) : Nat := (rs.map (fun b => b.key.length + 1)).sum

/-- The records as (key, size, offset) triples. -/
def trips (rs : List PBlob) : List (Bytes × Nat × Nat) :=
  rs.map (fun b => (b.key, b.size, b.offset))

/-- Invariant of the table through the insert loop of `main`: the capacity is
the power of two `2 ^ KK`, the mask is `capacity - 1`, the slot array has
`capacity` slots, exactly one slot is occupied per inserted record, every
occupied slot holds the entry of an inserted record, and every inserted
record's entry sits at some probe distance `d` from its home slot with every
earlier slot of its probe path occupied. -/
def TInv (KK : Nat) (t : Table) (done : List (Bytes × Nat × Nat)) : Prop :=
  t.capacity = 2 ^ KK ∧ t.mask = t.capacity - 1 ∧ t.entries.length = t.capacity ∧
  occCount t.entries = done.length ∧
  (∀ o ∈ t.entries, ∀ e, o = some e → ∃ r ∈ done, e = mkEntry r.1 r.2.1 r.2.2) ∧
  (∀ r ∈ done, ∃ d < t.capacity,
    t.entries.getD ((fnv1a r.1 % t.capacity + d) % t.capacity) none =
      some (mkEntry r.1 r.2.1 r.2.2) ∧
    ∀ j < d, (t.entries.getD ((fnv1a r.1 % t.capacity + j) % t.capacity) none).isSome = true)

end StaticIx

/-!
## Theorems
-/

namespace Fluxor

theorem ltb_irrefl (a : Bytes) : ltb a a = false := by
  induction a with
  | nil => rfl
  | cons x xs ih => simp [ltb, ih]

theorem ltb_asymm : ∀ {a b : Bytes}, ltb a b = true → ltb b a = false := by
  intro a
  induction a with
  | nil =>
    intro b h
    cases b with
    | nil => simp [ltb] at h
    | cons y ys => simp [ltb]
  | cons x xs ih =>
    intro b h
    cases b with
    | nil => simp [ltb] at h
    | cons y ys =>
      simp only [ltb] at h ⊢
      rcases Nat.lt_trichotomy x y with hlt | heq | hgt
      · simp [hlt, Nat.lt_asymm hlt]
      · subst heq
        simp only [Nat.lt_irrefl, if_false] at h ⊢
        exact ih h
      · simp [hgt, Nat.lt_asymm hgt] at h

theorem ltb_trans : ∀ {a b c : Bytes}, ltb a b = true → ltb b c = true → ltb a c = true := by
  intro a
  induction a with
  | nil =>
    intro b c hab hbc
    cases b with
    | nil => simp [ltb] at hab
    | cons y ys =>
      cases c with
      | nil => simp [ltb] at hbc
      | cons z zs => simp [ltb]
  | cons x xs ih =>
    intro b c hab hbc
    cases b with
    | nil => simp [ltb] at hab
    | cons y ys =>
      cases c with
      | nil => simp [ltb] at hbc
      | cons z zs =>
        simp only [ltb] at hab hbc ⊢
        rcases Nat.lt_trichotomy x y with hxy | hxy | hxy
        · rcases Nat.lt_trichotomy y z with hyz | hyz | hyz
          · have hxz : x < z := Nat.lt_trans hxy hyz
            simp [hxz]
          · subst hyz
            simp [hxy]
          · simp [hyz, Nat.lt_asymm hyz] at hbc
        · subst hxy
          simp only [Nat.lt_irrefl, if_false] at hab
          rcases Nat.lt_trichotomy x z with hyz | hyz | hyz
          · simp [hyz]
          · subst hyz
            simp only [Nat.lt_irrefl, if_false] at hbc ⊢
            exact ih hab hbc
          · simp [hyz, Nat.lt_asymm hyz] at hbc
        · simp [hxy, Nat.lt_asymm hxy] at hab

theorem ltb_total_eq : ∀ {a b : Bytes}, ltb a b = false → ltb b a = false → a = b := by
  intro a
  induction a with
  | nil =>
    intro b hab _
    cases b with
    | nil => rfl
    | cons y ys => simp [ltb] at hab
  | cons x xs ih =>
    intro b hab hba
    cases b with
    | nil => simp [ltb] at hba
    | cons y ys =>
      simp only [ltb] at hab hba
      rcases Nat.lt_trichotomy x y with hxy | hxy | hxy
      · simp [hxy] at hab
      · subst hxy
        simp only [Nat.lt_irrefl, if_false] at hab hba
        rw [ih hab hba]
      · simp [hxy, Nat.lt_asymm hxy] at hba

/-- If `ltb a b` is not true then either `a = b` or `ltb b a`. -/
theorem ltb_false_cases {a b : Bytes} (h : ltb a b = false) : a = b ∨ ltb b a = true := by
  cases hba : ltb b a with
  | true => exact Or.inr rfl
  | false => exact Or.inl (ltb_total_eq h hba)

/-- Transitivity of the non-strict (complement) order. -/
theorem geb_trans {a b c : Bytes} (hab : ltb a b = false) (hbc : ltb b c = false) :
    ltb a c = false := by
  cases hac : ltb a c with
  | false => rfl
  | true =>
    rcases ltb_false_cases hab with h | h
    · subst h
      rw [hbc] at hac
      cases hac
    · rcases ltb_false_cases hbc with h2 | h2
      · subst h2
        rw [hab] at hac
        cases hac
      · have h3 := ltb_trans hac (ltb_trans h2 h)
        rw [ltb_irrefl] at h3
        cases h3

instance : IsTotal Bytes geRel := by
  constructor
  intro a b
  cases h : ltb a b with
  | false => exact Or.inl h
  | true => exact Or.inr (ltb_asymm h)

instance : IsTrans Bytes geRel :=
  ⟨fun _ _ _ hab hbc => geb_trans hab hbc⟩

instance : IsAntisymm Bytes geRel :=
  ⟨fun _ _ hab hba => ltb_total_eq hab hba⟩

/-- A prefix is `≤` its extension in the lexicographic order. -/
theorem isPre_ltb_false : ∀ {p k : Bytes}, isPre p k = true → ltb k p = false := by
  intro p
  induction p with
  | nil =>
    intro k _
    cases k with
    | nil => rfl
    | cons x xs => rfl
  | cons a as ih =>
    intro k h
    cases k with
    | nil => simp [isPre] at h
    | cons b bs =>
      simp only [isPre, Bool.and_eq_true, beq_iff_eq] at h
      obtain ⟨hab, hpre⟩ := h
      subst hab
      simp only [ltb, Nat.lt_irrefl, if_false]
      exact ih hpre

/-- Keys at or above `p` that do not start with `p` dominate all keys that do:
anything strictly larger also fails to start with `p`. -/
theorem notPre_of_gt : ∀ {p k w : Bytes},
    ltb k p = false → isPre p k = false → ltb k w = true → isPre p w = false := by
  intro p
  induction p with
  | nil =>
    intro k w h1 h2 _
    cases k with
    | nil => simp [isPre] at h2
    | cons b bs => simp [isPre] at h2
  | cons a as ih =>
    intro k w h1 h2 h3
    cases k with
    | nil => simp [ltb] at h1
    | cons b bs =>
      cases w with
      | nil => simp [ltb] at h3
      | cons c cs =>
        simp only [ltb] at h1 h3
        have hba : ¬ b < a := by
          intro hh
          simp [hh] at h1
        have hbc : b ≤ c := by
          rcases Nat.lt_trichotomy b c with h | h | h
          · exact Nat.le_of_lt h
          · exact Nat.le_of_eq h
          · simp [h, Nat.lt_asymm h] at h3
        rcases Nat.lt_trichotomy a b with hab | hab | hab
        · have hac : a ≠ c := by omega
          have hf : (a == c) = false := beq_eq_false_iff_ne.mpr hac
          simp [isPre, hf]
        · subst hab
          simp only [Nat.lt_irrefl, if_false] at h1
          simp only [isPre, beq_self_eq_true, Bool.true_and] at h2
          rcases Nat.lt_trichotomy a c with hc | hc | hc
          · have hf : (a == c) = false := beq_eq_false_iff_ne.mpr (Nat.ne_of_lt hc)
            simp [isPre, hf]
          · subst hc
            simp only [Nat.lt_irrefl, if_false] at h3
            simp [isPre, ih h1 h2 h3]
          · simp [hc, Nat.lt_asymm hc] at h3
        · exact absurd hab hba

end Fluxor

namespace DynIx

open Fluxor

/-- In a strictly ascending list whose elements are all `≥ p`,
collecting while the prefix matches equals filtering by the prefix. -/
theorem takeWhile_eq_filter_of_ge (p : Bytes) :
    ∀ X : List Bytes, List.Pairwise (fun a b => ltb a b = true) X →
      (∀ x ∈ X, ltb x p = false) →
      X.takeWhile (fun k => isPre p k) = X.filter (fun k => isPre p k) := by
  intro X
  induction X with
  | nil => intro _ _; rfl
  | cons x xs ih =>
    intro hp hge
    cases hx : isPre p x with
    | true =>
      simp only [List.takeWhile_cons, List.filter_cons, hx, if_true]
      rw [ih hp.of_cons (fun y hy => hge y (List.mem_cons_of_mem _ hy))]
    | false =>
      have hxs : ∀ y ∈ xs, isPre p y = false := by
        intro y hy
        exact notPre_of_gt (hge x (List.mem_cons_self _ _)) hx
          (List.rel_of_pairwise_cons hp hy)
      have hnil : List.filter (fun k => isPre p k) xs = [] :=
        List.filter_eq_nil_iff.mpr (fun y hy => by simp [hxs y hy])
      simp [List.takeWhile_cons, List.filter_cons, hx, hnil]

/-- C6: for every indexed key set `K` (ascending, as iterated from the
`std::map` ordered view) and every prefix `p`, `keysWithPrefix(p)` returns
exactly the keys of `K` that start with `p`, in ascending order. -/
theorem c6_keysWithPre_eq_filter (K : List Bytes) (p : Bytes)
    (hs : List.Pairwise (fun a b => ltb a b = true) K) :
    keysWithPre K p = K.filter (fun k => isPre p k) := by
  induction K with
  | nil => rfl
  | cons k ks ih =>
    by_cases hk : ltb k p = true
    · have hpk : isPre p k = false := by
        cases hpk : isPre p k with
        | false => rfl
        | true => rw [isPre_ltb_false hpk] at hk; cases hk
      simp only [keysWithPre, List.dropWhile_cons, hk, if_true, List.filter_cons, hpk,
        if_false]
      exact ih hs.of_cons
    · have hk' : ltb k p = false := by
        cases h2 : ltb k p with
        | false => rfl
        | true => exact absurd h2 hk
      simp only [keysWithPre, List.dropWhile_cons, hk', if_false]
      have hge : ∀ x ∈ k :: ks, ltb x p = false := by
        intro x hx
        rcases List.mem_cons.mp hx with h | h
        · subst h; exact hk'
        · have hkx := List.rel_of_pairwise_cons hs h
          cases hxp : ltb x p with
          | false => rfl
          | true => rw [ltb_trans hkx hxp] at hk'; cases hk'
      exact takeWhile_eq_filter_of_ge p (k :: ks) hs hge

/-- Witness for C6 at spec scenario S1: keys apple, apricot, banana, cherry;
keysWithPrefix "ap" returns exactly [apple, apricot]. -/
theorem c6_witness :
    keysWithPre [[97,112,112,108,101],[97,112,114,105,99,111,116],
        [98,97,110,97,110,97],[99,104,101,114,114,121]] [97,112]
      = [[97,112,112,108,101],[97,112,114,105,99,111,116]] := by
  have h := c6_keysWithPre_eq_filter
    [[97,112,112,108,101],[97,112,114,105,99,111,116],
      [98,97,110,97,110,97],[99,104,101,114,114,121]] [97,112] (by decide)
  rw [h]
  decide

end DynIx

namespace DynIx

open Fluxor

theorem natDigitsAux_congr : ∀ f1 : Nat, ∀ f2 n : Nat, n < f1 → n < f2 →
    natDigitsAux f1 n = natDigitsAux f2 n := by
  intro f1
  induction f1 with
  | zero => intro f2 n h1 _; omega
  | succ f1 ih =>
    intro f2 n h1 h2
    cases f2 with
    | zero => omega
    | succ f2 =>
      simp only [natDigitsAux]
      by_cases h : n < 10
      · simp [h]
      · simp only [h, if_false]
        rw [ih f2 (n / 10) (by omega) (by omega)]

theorem natDigits_eq_small {n : Nat} (h : n < 10) : natDigits n = [48 + n] := by
  unfold natDigits natDigitsAux
  simp [h]

theorem natDigits_eq_big {n : Nat} (h : ¬ n < 10) :
    natDigits n = natDigits (n / 10) ++ [48 + n % 10] := by
  unfold natDigits
  rw [show natDigitsAux (n + 1) n = natDigitsAux n (n / 10) ++ [48 + n % 10] from by
    simp only [natDigitsAux, h, if_false]]
  rw [natDigitsAux_congr n (n / 10 + 1) (n / 10) (by omega) (by omega)]

theorem natDigits_ne_nil (n : Nat) : natDigits n ≠ [] := by
  by_cases h : n < 10
  · simp [natDigits_eq_small h]
  · simp [natDigits_eq_big h]

theorem natDigits_bounds (n : Nat) : ∀ d ∈ natDigits n, 48 ≤ d ∧ d ≤ 57 := by
  induction n using Nat.strong_induction_on with
  | _ n ih =>
    by_cases h : n < 10
    · rw [natDigits_eq_small h]
      intro d hd
      simp at hd
      omega
    · rw [natDigits_eq_big h]
      intro d hd
      rcases List.mem_append.mp hd with h1 | h1
      · exact ih (n / 10) (Nat.div_lt_self (by omega) (by omega)) d h1
      · simp at h1
        have : n % 10 < 10 := Nat.mod_lt _ (by omega)
        omega

theorem natDigits_foldl (n : Nat) : ∀ acc : Nat,
    (natDigits n).foldl valStep acc = acc * 10 ^ (natDigits n).length + n := by
  induction n using Nat.strong_induction_on with
  | _ n ih =>
    intro acc
    by_cases h : n < 10
    · rw [natDigits_eq_small h]
      simp [valStep]
    · rw [natDigits_eq_big h, List.foldl_append,
        ih (n / 10) (Nat.div_lt_self (by omega) (by omega)) acc]
      simp only [List.foldl_cons, List.foldl_nil, valStep, List.length_append,
        List.length_cons, List.length_nil]
      have h1 : 48 + n % 10 - 48 = n % 10 := by omega
      have h2 : n / 10 * 10 + n % 10 = n := by omega
      rw [h1]
      calc (acc * 10 ^ (natDigits (n / 10)).length + n / 10) * 10 + n % 10
          = acc * (10 ^ (natDigits (n / 10)).length * 10) + (n / 10 * 10 + n % 10) := by ring
        _ = acc * 10 ^ ((natDigits (n / 10)).length + (0 + 1)) + n := by
            rw [h2, pow_add, pow_one]

theorem takeWhile_all {p : Nat → Bool} : ∀ {l : List Nat}, (∀ c ∈ l, p c = true) →
    l.takeWhile p = l := by
  intro l
  induction l with
  | nil => intro _; rfl
  | cons a as ih =>
    intro h
    rw [List.takeWhile_cons, h a (List.mem_cons_self _ _)]
    simp [ih (fun c hc => h c (List.mem_cons_of_mem _ hc))]

theorem stoull_natDigits {n : Nat} (h : n < 2 ^ 64) : stoullModel (natDigits n) = some n := by
  unfold stoullModel
  have hall : ∀ c ∈ natDigits n, (48 ≤ c && c ≤ 57) = true := by
    intro c hc
    have hb := natDigits_bounds n c hc
    simp [hb.1, hb.2]
  rw [takeWhile_all hall]
  have hne : (natDigits n).isEmpty = false := by
    simp [List.isEmpty_eq_false, natDigits_ne_nil n]
  rw [hne]
  simp only [Bool.false_eq_true, if_false]
  rw [natDigits_foldl n 0]
  simp only [Nat.zero_mul, Nat.zero_add]
  rw [if_pos (by exact h)]

theorem drop_app_succ (d : Nat) : ∀ (key X : List Nat),
    (key ++ d :: X).drop (key.length + 1) = X := by
  intro key X
  induction key with
  | nil => rfl
  | cons a as ih => simp [ih]

theorem take_app (d : Nat) : ∀ (key X : List Nat),
    (key ++ d :: X).take key.length = key := by
  intro key X
  induction key with
  | nil => rfl
  | cons a as ih => simp [ih]

theorem findIdx9_append {key : List Nat} (rest : List Nat) (h : ∀ c ∈ key, c ≠ 9) :
    (key ++ 9 :: rest).findIdx? (fun c => c == 9) = some key.length := by
  induction key with
  | nil => simp [List.findIdx?_cons]
  | cons a as ih =>
    have ha : (a == 9) = false := beq_eq_false_iff_ne.mpr (h a (List.mem_cons_self _ _))
    rw [List.cons_append, List.findIdx?_cons, ha]
    simp only [Bool.false_eq_true, if_false]
    rw [List.findIdx?_succ, ih (fun c hc => h c (List.mem_cons_of_mem _ hc))]
    simp

theorem lineParse_save (k : Bytes) (v : Meta) (hk9 : ∀ c ∈ k, c ≠ 9)
    (hsz : v.size < 2 ^ 64) (hmt : v.modTime < 2 ^ 64) :
    lineParse (k ++ 9 :: (natDigits v.size ++ 9 :: natDigits v.modTime)) =
      some (some (k, v)) := by
  unfold lineParse
  rw [findIdx9_append _ hk9]
  simp only
  rw [drop_app_succ, take_app]
  have hds9 : ∀ c ∈ natDigits v.size, c ≠ 9 := by
    intro c hc
    have := natDigits_bounds _ c hc
    omega
  rw [findIdx9_append _ hds9]
  simp only
  rw [take_app, drop_app_succ]
  rw [stoull_natDigits hsz, stoull_natDigits hmt]

theorem splitLinesAux_congr : ∀ f1 : Nat, ∀ (f2 : Nat) (l : List Nat),
    l.length ≤ f1 → l.length ≤ f2 → splitLinesAux f1 l = splitLinesAux f2 l := by
  intro f1
  induction f1 with
  | zero =>
    intro f2 l h1 _
    cases l with
    | nil => simp [splitLinesAux]
    | cons c cs => simp at h1
  | succ f1 ih =>
    intro f2 l h1 h2
    cases l with
    | nil => simp [splitLinesAux]
    | cons c cs =>
      cases f2 with
      | zero => simp at h2
      | succ f2 =>
        simp only [splitLinesAux]
        congr 1
        apply ih
        · simp only [List.length_drop, List.length_cons]
          simp only [List.length_cons] at h1
          omega
        · simp only [List.length_drop, List.length_cons]
          simp only [List.length_cons] at h2
          omega

theorem splitLines_cons (c : Nat) (cs : List Nat) :
    splitLines (c :: cs) =
      ((c :: cs).takeWhile (fun x => !(x == 10))) ::
        splitLines ((c :: cs).drop (((c :: cs).takeWhile (fun x => !(x == 10))).length + 1)) := by
  unfold splitLines
  simp only [List.length_cons, splitLinesAux]
  congr 1
  apply splitLinesAux_congr
  · simp only [List.length_drop, List.length_cons]
    omega
  · exact Nat.le_refl _

theorem splitLines_line (L rest : List Nat) (hL : ∀ c ∈ L, c ≠ 10) :
    splitLines (L ++ 10 :: rest) = L :: splitLines rest := by
  cases L with
  | nil =>
    rw [List.nil_append, splitLines_cons]
    simp
  | cons a as =>
    rw [List.cons_append, splitLines_cons, ← List.cons_append]
    have hp : ∀ x ∈ a :: as, (!(x == 10)) = true := by
      intro x hx
      simp [hL x hx]
    have h1 : ((a :: as) ++ 10 :: rest).takeWhile (fun x => !(x == 10)) = a :: as := by
      rw [List.takeWhile_append_of_pos hp]
      simp
    rw [h1, drop_app_succ]

theorem upsert_fresh {m : IndexState} {k : Bytes} {v : Meta}
    (h : ∀ e ∈ m, e.1 ≠ k) : upsert m k v = m ++ [(k, v)] := by
  have h2 : (m.any fun e => e.1 == k) = false := by
    rw [List.any_eq_false]
    intro e he
    simp [h e he]
  simp [upsert, h2]

theorem saveBytes_cons (e : Bytes × Meta) (m : IndexState) :
    saveBytes (e :: m) =
      (e.1 ++ 9 :: (natDigits e.2.size ++ 9 :: natDigits e.2.modTime)) ++
        10 :: saveBytes m := by
  simp [saveBytes]

theorem load_save_aux (m : IndexState) : ∀ acc : IndexState,
    (∀ e ∈ m, (∀ c ∈ e.1, c ≠ 9 ∧ c ≠ 10) ∧ e.2.size < 2 ^ 64 ∧ e.2.modTime < 2 ^ 64) →
    (m.map Prod.fst).Nodup →
    (∀ e ∈ acc, ∀ f ∈ m, e.1 ≠ f.1) →
    (splitLines (saveBytes m)).foldlM
      (fun st line =>
        match lineParse line with
        | none => none
        | some none => some st
        | some (some kv) => some (upsert st kv.1 kv.2)) acc = some (acc ++ m) := by
  induction m with
  | nil =>
    intro acc _ _ _
    simp [saveBytes, splitLines, splitLinesAux]
  | cons e m ih =>
    intro acc hcl hnd hdisj
    rw [saveBytes_cons]
    have hline9 : ∀ c ∈ e.1, c ≠ 9 := fun c hc => ((hcl e (List.mem_cons_self _ _)).1 c hc).1
    have hline10 : ∀ c ∈ e.1 ++ 9 :: (natDigits e.2.size ++ 9 :: natDigits e.2.modTime), c ≠ 10 := by
      intro c hc
      rcases List.mem_append.mp hc with h1 | h1
      · exact ((hcl e (List.mem_cons_self _ _)).1 c h1).2
      · rcases List.mem_cons.mp h1 with h2 | h2
        · omega
        · rcases List.mem_append.mp h2 with h3 | h3
          · have := natDigits_bounds _ c h3
            omega
          · rcases List.mem_cons.mp h3 with h4 | h4
            · omega
            · have := natDigits_bounds _ c h4
              omega
    rw [splitLines_line _ _ hline10]
    rw [List.foldlM_cons]
    rw [lineParse_save e.1 e.2 hline9 (hcl e (List.mem_cons_self _ _)).2.1
      (hcl e (List.mem_cons_self _ _)).2.2]
    simp only [Option.bind_eq_bind, Option.some_bind]
    have hfresh : ∀ f ∈ acc, f.1 ≠ e.1 := fun f hf => hdisj f hf e (List.mem_cons_self _ _)
    rw [upsert_fresh hfresh]
    have hstep := ih (acc ++ [(e.1, e.2)])
      (fun f hf => hcl f (List.mem_cons_of_mem _ hf))
      hnd.of_cons
      (by
        intro f hf g hg
        rcases List.mem_append.mp hf with h1 | h1
        · exact hdisj f h1 g (List.mem_cons_of_mem _ hg)
        · have hf1 : f.1 = e.1 := by
            simp at h1
            rw [h1]
          have h5 : (e.1 :: m.map Prod.fst).Nodup := by
            simpa only [List.map_cons] using hnd
          intro hcontra
          exact (List.nodup_cons.mp h5).1
            (by rw [← hf1, hcontra]; exact List.mem_map_of_mem _ hg))
    rw [hstep]
    simp

/-- C5 (amended): for every dynamic-indexer state whose keys contain neither
tab nor newline (and whose `u64` fields are in range, as they always are in
the C++ state), `saveToFile` then `loadFromFile` reconstructs exactly the
same hash view, the same ordered view, and returns `true` (`some`). -/
theorem c5_snapshot_roundtrip (m : IndexState)
    (hnd : (m.map Prod.fst).Nodup)
    (hclean : ∀ e ∈ m, ∀ c ∈ e.1, c ≠ 9 ∧ c ≠ 10)
    (hrange : ∀ e ∈ m, e.2.size < 2 ^ 64 ∧ e.2.modTime < 2 ^ 64) :
    loadBytes (saveBytes m) = some m ∧
      (loadBytes (saveBytes m)).map orderedKeys = some (orderedKeys m) := by
  have h := load_save_aux m []
    (fun e he => ⟨hclean e he, hrange e he⟩) hnd (by simp)
  unfold loadBytes
  rw [h]
  simp

/-- Counterexample to C5 as stated: a key containing a tab byte corrupts the
snapshot line; reloading it makes `stoull` throw, so the round-trip does not
reconstruct the state (`loadFromFile` does not even return). -/
theorem c5_counterexample :
    loadBytes (saveBytes [([97, 9, 98], ⟨1, 2⟩)]) ≠
      some [([97, 9, 98], ⟨1, 2⟩)] := by
  decide

/-- Witness for C5 at a concrete two-entry state with clean keys. -/
theorem c5_witness :
    loadBytes (saveBytes [([97], ⟨3, 5⟩), ([98, 99], ⟨0, 7⟩)]) =
        some [([97], ⟨3, 5⟩), ([98, 99], ⟨0, 7⟩)] ∧
      (loadBytes (saveBytes [([97], ⟨3, 5⟩), ([98, 99], ⟨0, 7⟩)])).map orderedKeys =
        some (orderedKeys [([97], ⟨3, 5⟩), ([98, 99], ⟨0, 7⟩)]) :=
  c5_snapshot_roundtrip _ (by decide) (by decide) (by decide)

end DynIx

namespace LRU

open Fluxor

theorem sumSizes_nil : sumSizes [] = 0 := rfl

theorem sumSizes_cons (e : CacheEntry) (l : List CacheEntry) :
    sumSizes (e :: l) = entSize e + sumSizes l := by
  simp [sumSizes]

theorem sumSizes_append (l1 l2 : List CacheEntry) :
    sumSizes (l1 ++ l2) = sumSizes l1 + sumSizes l2 := by
  simp [sumSizes]

theorem sumSizes_reverse (l : List CacheEntry) : sumSizes l.reverse = sumSizes l := by
  induction l with
  | nil => rfl
  | cons e rest ih =>
    rw [List.reverse_cons, sumSizes_append, sumSizes_cons, sumSizes_cons, sumSizes_nil, ih]
    omega

theorem takeBudget_sublist (B : Nat) : ∀ l : List CacheEntry,
    List.Sublist (takeBudget B l) l := by
  intro l
  induction l generalizing B with
  | nil => exact List.Sublist.refl _
  | cons e rest ih =>
    simp only [takeBudget]
    by_cases h : entSize e ≤ B
    · simp only [h, if_true]
      exact List.Sublist.cons₂ _ (ih _)
    · simp only [h, if_false]
      exact List.nil_sublist _

theorem mem_takeBudget {B : Nat} {l : List CacheEntry} {x : CacheEntry}
    (h : x ∈ takeBudget B l) : x ∈ l :=
  (takeBudget_sublist B l).mem h

theorem mem_dedupKeys : ∀ {l : List CacheEntry} {x : CacheEntry},
    x ∈ dedupKeys l → x ∈ l := by
  intro l
  induction l with
  | nil => intro x h; exact absurd h (by simp [dedupKeys])
  | cons e rest ih =>
    intro x h
    rw [dedupKeys] at h
    rcases List.mem_cons.mp h with h1 | h1
    · exact h1 ▸ List.mem_cons_self _ _
    · exact List.mem_cons_of_mem _ (ih (List.mem_of_mem_filter h1))

theorem sum_takeBudget_le (B : Nat) : ∀ l : List CacheEntry,
    sumSizes (takeBudget B l) ≤ B := by
  intro l
  induction l generalizing B with
  | nil => simp [takeBudget, sumSizes]
  | cons e rest ih =>
    simp only [takeBudget]
    by_cases h : entSize e ≤ B
    · simp only [h, if_true, sumSizes_cons]
      have h2 := ih (B - entSize e)
      omega
    · simp [h, sumSizes]

theorem takeBudget_of_le (B : Nat) : ∀ l : List CacheEntry, sumSizes l ≤ B →
    takeBudget B l = l := by
  intro l
  induction l generalizing B with
  | nil => intro _; rfl
  | cons e rest ih =>
    intro h
    rw [sumSizes_cons] at h
    simp only [takeBudget]
    rw [if_pos (by omega : entSize e ≤ B)]
    rw [ih (B - entSize e) (by omega)]

theorem takeBudget_append_gt (B : Nat) : ∀ (l : List CacheEntry) (e : CacheEntry),
    B < sumSizes (l ++ [e]) → takeBudget B (l ++ [e]) = takeBudget B l := by
  intro l
  induction l generalizing B with
  | nil =>
    intro e h
    simp only [sumSizes_cons, sumSizes_nil, List.nil_append] at h
    simp only [takeBudget]
    rw [if_neg (by omega : ¬ entSize e ≤ B)]
  | cons a rest ih =>
    intro e h
    rw [List.cons_append]
    simp only [takeBudget]
    by_cases ha : entSize a ≤ B
    · simp only [ha, if_true]
      rw [ih (B - entSize a) e]
      rw [List.cons_append, sumSizes_cons] at h
      omega
    · simp [ha]

theorem evictAuxR_take (B : Nat) : ∀ (R : List CacheEntry) (b : Nat),
    b = sumSizes R.reverse →
    evictAuxR B R b = ((takeBudget B R.reverse).reverse, sumSizes (takeBudget B R.reverse)) := by
  intro R
  induction R with
  | nil =>
    intro b hb
    simp [sumSizes_nil, List.reverse_nil] at hb
    simp [evictAuxR, takeBudget, hb, sumSizes_nil]
  | cons e rest ih =>
    intro b hb
    rw [List.reverse_cons] at hb ⊢
    simp only [evictAuxR]
    rw [sumSizes_append, sumSizes_cons, sumSizes_nil] at hb
    by_cases h : b > B
    · simp only [h, if_true]
      rw [ih (b - entSize e) (by omega)]
      rw [takeBudget_append_gt B rest.reverse e
        (by rw [sumSizes_append, sumSizes_cons, sumSizes_nil]; omega)]
    · simp only [h, if_false]
      rw [takeBudget_of_le B _
        (by rw [sumSizes_append, sumSizes_cons, sumSizes_nil]; omega)]
      rw [List.reverse_append]
      rw [show sumSizes (rest.reverse ++ [e]) = sumSizes rest.reverse + entSize e from by
        rw [sumSizes_append, sumSizes_cons, sumSizes_nil]; omega]
      simp [hb]

theorem evict_take (B : Nat) (X : List CacheEntry) :
    evict B ⟨X, sumSizes X⟩ = ⟨takeBudget B X, sumSizes (takeBudget B X)⟩ := by
  unfold evict
  rw [evictAuxR_take B X.reverse (sumSizes X) (by rw [List.reverse_reverse])]
  simp [List.reverse_reverse]

theorem takeBudget_idem : ∀ (L : List CacheEntry) (B B' : Nat), B' ≤ B →
    takeBudget B' (takeBudget B L) = takeBudget B' L := by
  intro L
  induction L with
  | nil => intro B B' _; rfl
  | cons a rest ih =>
    intro B B' hle
    by_cases hB : entSize a ≤ B
    · by_cases hB' : entSize a ≤ B'
      · simp only [takeBudget, hB, hB', if_true]
        rw [ih (B - entSize a) (B' - entSize a) (by omega)]
      · simp only [takeBudget, hB, hB', if_true, if_false]
    · have hB' : ¬ entSize a ≤ B' := by omega
      simp [hB, hB', takeBudget]

theorem takeBudget_cons_takeBudget (B : Nat) (e : CacheEntry) (L : List CacheEntry) :
    takeBudget B (e :: takeBudget B L) = takeBudget B (e :: L) := by
  by_cases h : entSize e ≤ B
  · simp only [takeBudget, h, if_true]
    rw [takeBudget_idem L B (B - entSize e) (by omega)]
  · simp [takeBudget, h]

theorem runPuts_append_single (B : Nat) (ops : List (Bytes × Option (List Nat)))
    (op : Bytes × Option (List Nat)) :
    runPuts B (ops ++ [op]) = putLRU B (runPuts B ops) op.1 op.2 := by
  simp [runPuts, List.foldl_append]

theorem runPuts_canonical (B : Nat) : ∀ ops : List (Bytes × Option (List Nat)),
    (ops.map Prod.fst).Nodup →
    runPuts B ops = ⟨takeBudget B (mruOrder ops), sumSizes (takeBudget B (mruOrder ops))⟩ := by
  intro ops
  induction ops using List.reverseRecOn with
  | nil => intro _; simp [runPuts, mruOrder, dedupKeys, takeBudget, sumSizes]
  | append_singleton l op ih =>
    intro hnd
    rw [List.map_append] at hnd
    have hnd_l : (l.map Prod.fst).Nodup := hnd.of_append_left
    have hk : op.1 ∉ l.map Prod.fst := by
      intro hmem
      exact List.disjoint_of_nodup_append hnd hmem (by simp)
    rw [runPuts_append_single, ih hnd_l]
    have hmru : mruOrder (l ++ [op]) = ⟨op.1, op.2⟩ :: mruOrder l := by
      unfold mruOrder
      rw [List.reverse_append]
      simp only [List.reverse_singleton, List.singleton_append, List.map_cons]
      rw [dedupKeys]
      congr 1
      apply List.filter_eq_self.mpr
      intro x hx
      have hx2 := mem_dedupKeys hx
      rcases List.mem_map.mp hx2 with ⟨p, hp, hpx⟩
      have hxkey : x.key = p.1 := by rw [← hpx]
      have hp1 : p.1 ∈ l.map Prod.fst :=
        List.mem_map_of_mem _ (List.mem_reverse.mp hp)
      have hne : x.key ≠ op.1 := by
        rw [hxkey]
        intro hcontra
        exact hk (hcontra ▸ hp1)
      simp [hne]
    rw [hmru]
    have hfind : (takeBudget B (mruOrder l)).find? (fun e => e.key == op.1) = none := by
      apply List.find?_eq_none.mpr
      intro x hx
      have hx2 := mem_dedupKeys (mem_takeBudget hx)
      rcases List.mem_map.mp hx2 with ⟨p, hp, hpx⟩
      have hxkey : x.key = p.1 := by rw [← hpx]
      have hp1 : p.1 ∈ l.map Prod.fst :=
        List.mem_map_of_mem _ (List.mem_reverse.mp hp)
      have hne : x.key ≠ op.1 := by
        rw [hxkey]
        intro hcontra
        exact hk (hcontra ▸ hp1)
      simp [hne]
    unfold putLRU invalidate
    rw [hfind]
    simp only
    have hb : sumSizes (takeBudget B (mruOrder l)) + entSize ⟨op.1, op.2⟩ =
        sumSizes (⟨op.1, op.2⟩ :: takeBudget B (mruOrder l)) := by
      rw [sumSizes_cons]
      omega
    rw [hb, evict_take, takeBudget_cons_takeBudget]

end LRU

namespace LRU

open Fluxor

theorem sum_filter_find (k : Bytes) : ∀ l : List CacheEntry,
    (l.map CacheEntry.key).Nodup →
    ∀ e, l.find? (fun x => x.key == k) = some e →
    sumSizes (l.filter (fun x => !(x.key == k))) + entSize e = sumSizes l := by
  intro l
  induction l with
  | nil => intro _ e h; simp at h
  | cons a rest ih =>
    intro hnd e hf
    by_cases ha : a.key = k
    · have hbeq : (a.key == k) = true := beq_iff_eq.mpr ha
      rw [List.find?_cons] at hf
      simp only [hbeq] at hf
      have hea : e = a := by
        injection hf with h
        exact h.symm
      rw [hea]
      have hnotin : a.key ∉ rest.map CacheEntry.key := by
        have h5 : (a.key :: rest.map CacheEntry.key).Nodup := by
          simpa only [List.map_cons] using hnd
        exact (List.nodup_cons.mp h5).1
      have hrest : ∀ x ∈ rest, ((!(x.key == k)) = true) := by
        intro x hx
        have : x.key ≠ k := by
          intro hc
          exact hnotin (by rw [ha, ← hc]; exact List.mem_map_of_mem _ hx)
        simp [this]
      rw [List.filter_cons, hbeq]
      simp only [Bool.not_true, Bool.false_eq_true, if_false]
      rw [List.filter_eq_self.mpr hrest, sumSizes_cons]
      omega
    · have hbeq : (a.key == k) = false := by simp [ha]
      rw [List.find?_cons] at hf
      simp only [hbeq] at hf
      have h5 : (rest.map CacheEntry.key).Nodup := by
        have h6 : (a.key :: rest.map CacheEntry.key).Nodup := by
          simpa only [List.map_cons] using hnd
        exact (List.nodup_cons.mp h6).2
      rw [List.filter_cons, hbeq]
      simp only [Bool.not_false, if_true]
      rw [sumSizes_cons, sumSizes_cons]
      have h7 := ih h5 e hf
      omega

theorem invalidate_wf (st : CacheState) (k : Bytes)
    (hnd : (st.entries.map CacheEntry.key).Nodup)
    (hsum : st.bytes = sumSizes st.entries) :
    (invalidate st k).entries = st.entries.filter (fun e => !(e.key == k)) ∧
      (invalidate st k).bytes = sumSizes ((invalidate st k).entries) := by
  cases hf : st.entries.find? (fun e => e.key == k) with
  | none =>
    have hmatch : invalidate st k = st := by
      unfold invalidate
      rw [hf]
    have hall : ∀ x ∈ st.entries, ((!(x.key == k)) = true) := by
      intro x hx
      have h2 := List.find?_eq_none.mp hf x hx
      simp at h2
      simp [h2]
    rw [hmatch]
    exact ⟨(List.filter_eq_self.mpr hall).symm, hsum⟩
  | some e =>
    have hmatch : invalidate st k =
        ⟨st.entries.filter (fun e2 => !(e2.key == k)), st.bytes - entSize e⟩ := by
      unfold invalidate
      rw [hf]
    rw [hmatch]
    refine ⟨rfl, ?_⟩
    show st.bytes - entSize e = sumSizes (st.entries.filter (fun e2 => !(e2.key == k)))
    have h := sum_filter_find k st.entries hnd e hf
    omega

theorem putLRU_wf (B : Nat) (st : CacheState) (k : Bytes) (d : Option (List Nat))
    (hnd : (st.entries.map CacheEntry.key).Nodup)
    (hsum : st.bytes = sumSizes st.entries) :
    ((putLRU B st k d).entries.map CacheEntry.key).Nodup ∧
      (putLRU B st k d).bytes = sumSizes (putLRU B st k d).entries ∧
      (putLRU B st k d).bytes ≤ B := by
  obtain ⟨hE, hb⟩ := invalidate_wf st k hnd hsum
  have hnd1 : ((invalidate st k).entries.map CacheEntry.key).Nodup := by
    rw [hE]
    exact List.Nodup.sublist (List.Sublist.map _ (List.filter_sublist _)) hnd
  have hk1 : k ∉ (invalidate st k).entries.map CacheEntry.key := by
    rw [hE]
    intro hmem
    rcases List.mem_map.mp hmem with ⟨x, hx, hxk⟩
    have := List.of_mem_filter hx
    rw [hxk] at this
    simp at this
  unfold putLRU
  set X : List CacheEntry := ⟨k, d⟩ :: (invalidate st k).entries with hX
  have hsum2 : (invalidate st k).bytes + entSize ⟨k, d⟩ = sumSizes X := by
    rw [hX, sumSizes_cons]
    omega
  rw [hsum2, evict_take]
  have hndX : (X.map CacheEntry.key).Nodup := by
    rw [hX]
    simp only [List.map_cons]
    exact List.nodup_cons.mpr ⟨hk1, hnd1⟩
  refine ⟨?_, rfl, sum_takeBudget_le B X⟩
  exact List.Nodup.sublist (List.Sublist.map _ (takeBudget_sublist B X)) hndX

theorem foldPuts_wf (B : Nat) : ∀ (ops : List (Bytes × Option (List Nat))) (st : CacheState),
    (st.entries.map CacheEntry.key).Nodup → st.bytes = sumSizes st.entries →
    st.bytes ≤ B →
    ((ops.foldl (fun st op => putLRU B st op.1 op.2) st).entries.map CacheEntry.key).Nodup ∧
      (ops.foldl (fun st op => putLRU B st op.1 op.2) st).bytes =
        sumSizes (ops.foldl (fun st op => putLRU B st op.1 op.2) st).entries ∧
      (ops.foldl (fun st op => putLRU B st op.1 op.2) st).bytes ≤ B := by
  intro ops
  induction ops with
  | nil => intro st h1 h2 h3; exact ⟨h1, h2, h3⟩
  | cons op rest ih =>
    intro st h1 h2 _
    obtain ⟨g1, g2, g3⟩ := putLRU_wf B st op.1 op.2 h1 h2
    exact ih _ g1 g2 g3

/-- C7 (amended): for every byte budget `B` and every sequence of puts —
repeated keys allowed — after each operation `currentBytes_` is at most `B`;
and when the keys are pairwise distinct, the resident entries are exactly the
most-recently-used prefix of the inserted entries whose total payload size
fits in `B` (with repeated keys that characterisation fails — see
`c7_counterexample`). -/
theorem c7_lru_budget_suffix (B : Nat) (ops : List (Bytes × Option (List Nat))) :
    (∀ n : Nat, (runPuts B (ops.take n)).bytes ≤ B) ∧
      ((ops.map Prod.fst).Nodup →
        (runPuts B ops).entries = takeBudget B (mruOrder ops)) := by
  constructor
  · intro n
    exact (foldPuts_wf B (ops.take n) ⟨[], 0⟩ (by simp) rfl (by simp)).2.2
  · intro hnd
    rw [runPuts_canonical B ops hnd]

/-- Counterexample to C7 as stated: with repeated keys the reachable set can
be a strict subset of the most-recently-used suffix fitting the budget.
Budget 100; put y (60 bytes), put x (60 bytes) — evicts y —, put x again
(10 bytes).  The MRU suffix of the inserted entries fitting 100 bytes is
[x(10), y(60)], but y is gone: get(y) misses. -/
theorem c7_counterexample :
    lookupLRU
        (runPuts 100
          [([121], some (List.replicate 60 0)), ([120], some (List.replicate 60 0)),
            ([120], some (List.replicate 10 0))])
        [121] = none ∧
      (takeBudget 100
          (mruOrder
            [([121], some (List.replicate 60 0)), ([120], some (List.replicate 60 0)),
              ([120], some (List.replicate 10 0))])).map CacheEntry.key =
        [[120], [121]] := by
  decide

/-- Witness for C7: budget 1024, five distinct keys with 300-byte payloads —
only the three most recent fit; and the budget bound at a repeated-key
sequence (the counterexample's y(60), x(60), x(10) trace at budget 100). -/
theorem c7_witness :
    (runPuts 1024
          [([0], some (List.replicate 300 7)), ([1], some (List.replicate 300 7)),
            ([2], some (List.replicate 300 7)), ([3], some (List.replicate 300 7)),
            ([4], some (List.replicate 300 7))]).entries =
        takeBudget 1024
          (mruOrder
            [([0], some (List.replicate 300 7)), ([1], some (List.replicate 300 7)),
              ([2], some (List.replicate 300 7)), ([3], some (List.replicate 300 7)),
              ([4], some (List.replicate 300 7))]) ∧
      (runPuts 100
          (([([121], some (List.replicate 60 0)), ([120], some (List.replicate 60 0)),
            ([120], some (List.replicate 10 0))]).take 3)).bytes ≤ 100 :=
  ⟨(c7_lru_budget_suffix 1024 _).2 (by decide),
   (c7_lru_budget_suffix 100
      [([121], some (List.replicate 60 0)), ([120], some (List.replicate 60 0)),
        ([120], some (List.replicate 10 0))]).1 3⟩

end LRU

namespace Store

open Fluxor

theorem hexDigit_range (n : Nat) (h : n < 16) :
    (48 ≤ hexDigit n ∧ hexDigit n ≤ 57) ∨ (97 ≤ hexDigit n ∧ hexDigit n ≤ 102) := by
  unfold hexDigit
  by_cases h10 : n < 10
  · simp [h10]
    omega
  · simp [h10]
    omega

theorem hex_no95 (k : Bytes) : ∀ c ∈ hexEncode k, c ≠ 95 := by
  induction k with
  | nil => intro c hc; simp [hexEncode] at hc
  | cons b rest ih =>
    intro c hc
    simp only [hexEncode, List.foldr_cons] at hc
    rcases List.mem_cons.mp hc with h1 | h1
    · subst h1
      rcases hexDigit_range _ (by omega : b % 256 / 16 < 16) with h | h <;> omega
    · rcases List.mem_cons.mp h1 with h2 | h2
      · subst h2
        rcases hexDigit_range _ (by omega : b % 256 % 16 < 16) with h | h <;> omega
      · exact ih c h2

theorem hexVal_hexDigit (n : Nat) (h : n < 16) : hexVal (hexDigit n) = some n := by
  unfold hexVal hexDigit
  by_cases h10 : n < 10
  · rw [if_pos h10, if_pos (by omega)]
    congr 1
    omega
  · rw [if_neg h10, if_neg (by omega), if_pos (by omega)]
    congr 1
    omega

theorem hexDecode_hexEncode (k : Bytes) (hb : ∀ c ∈ k, c < 256) :
    hexDecode (hexEncode k) = some k := by
  induction k with
  | nil => rfl
  | cons b rest ih =>
    have hb0 : b < 256 := hb b (List.mem_cons_self _ _)
    have hmod : b % 256 = b := Nat.mod_eq_of_lt hb0
    simp only [hexEncode, List.foldr_cons]
    show hexDecode (hexDigit (b % 256 / 16) :: hexDigit (b % 256 % 16) :: hexEncode rest) = _
    rw [hexDecode]
    rw [hexVal_hexDigit _ (by omega), hexVal_hexDigit _ (by omega)]
    rw [ih (fun c hc => hb c (List.mem_cons_of_mem _ hc))]
    simp only [hmod]
    congr 2
    omega

theorem hexEncode_inj {k k' : Bytes} (hb : ∀ c ∈ k, c < 256) (hb' : ∀ c ∈ k', c < 256)
    (h : hexEncode k = hexEncode k') : k = k' := by
  have h1 := hexDecode_hexEncode k hb
  have h2 := hexDecode_hexEncode k' hb'
  rw [h, h2] at h1
  injection h1 with h3
  exact h3.symm

theorem hexVal_95_none : hexVal 95 = none := by decide

theorem hexDecode_none_of_95 : ∀ l : Bytes, 95 ∈ l → hexDecode l = none
  | [], h => by simp at h
  | [_], _ => rfl
  | hi :: lo :: rest, hmem => by
    show (match hexVal hi, hexVal lo, hexDecode rest with
      | some h, some l, some r => some ((h * 16 + l) :: r)
      | _, _, _ => none) = none
    rcases List.mem_cons.mp hmem with h1 | h1
    · rw [← h1, hexVal_95_none]
    · rcases List.mem_cons.mp h1 with h2 | h2
      · rw [← h2, hexVal_95_none]
        cases hexVal hi <;> rfl
      · rw [hexDecode_none_of_95 rest h2]
        cases hexVal hi <;> cases hexVal lo <;> rfl

theorem isPre_append_same : ∀ (x y z : Bytes), isPre (x ++ y) (x ++ z) = isPre y z := by
  intro x y z
  induction x with
  | nil => rfl
  | cons a as ih => simp [isPre, ih]

theorem isPre_append_right : ∀ (x z : Bytes), isPre x (x ++ z) = true := by
  intro x z
  induction x with
  | nil => rfl
  | cons a as ih => simp [isPre, ih]

theorem isPre_drop : ∀ {p q : Bytes}, isPre p q = true → q = p ++ q.drop p.length := by
  intro p
  induction p with
  | nil => intro q _; simp
  | cons a as ih =>
    intro q h
    cases q with
    | nil => simp [isPre] at h
    | cons b bs =>
      simp only [isPre, Bool.and_eq_true, beq_iff_eq] at h
      obtain ⟨hab, hrest⟩ := h
      simp only [List.cons_append, List.length_cons, List.drop_succ_cons]
      rw [hab, ← ih hrest]

theorem mem_of_isPre : ∀ {p q : Bytes}, isPre p q = true → ∀ {c : Nat}, c ∈ p → c ∈ q := by
  intro p
  induction p with
  | nil => intro q _ c hc; simp at hc
  | cons a as ih =>
    intro q h c hc
    cases q with
    | nil => simp [isPre] at h
    | cons b bs =>
      simp only [isPre, Bool.and_eq_true, beq_iff_eq] at h
      rcases List.mem_cons.mp hc with h1 | h1
      · rw [h1, h.1]
        exact List.mem_cons_self _ _
      · exact List.mem_cons_of_mem _ (ih h.2 h1)

theorem pre95 : ∀ (h1 h2 t : Bytes), (∀ c ∈ h1, c ≠ 95) → (∀ c ∈ h2, c ≠ 95) →
    isPre (h1 ++ [95, 95]) (h2 ++ 95 :: 95 :: t) = true → h1 = h2 := by
  intro h1
  induction h1 with
  | nil =>
    intro h2 t _ hh2 hp
    cases h2 with
    | nil => rfl
    | cons c cs =>
      simp only [List.nil_append, List.cons_append, isPre, Bool.and_eq_true, beq_iff_eq] at hp
      exact absurd hp.1.symm (hh2 c (List.mem_cons_self _ _))
  | cons a as ih =>
    intro h2 t hh1 hh2 hp
    cases h2 with
    | nil =>
      simp only [List.cons_append, List.nil_append, isPre, Bool.and_eq_true, beq_iff_eq] at hp
      exact absurd hp.1 (hh1 a (List.mem_cons_self _ _))
    | cons b bs =>
      simp only [List.cons_append, isPre, Bool.and_eq_true, beq_iff_eq] at hp
      obtain ⟨hab, hrest⟩ := hp
      rw [hab]
      rw [ih bs t (fun c hc => hh1 c (List.mem_cons_of_mem _ hc))
        (fun c hc => hh2 c (List.mem_cons_of_mem _ hc)) hrest]

theorem vff_self (k v : Bytes) : versionFromFname (hexEncode k) (fnameFor k v) = some v := by
  unfold versionFromFname fnameFor
  by_cases hv : v.isEmpty
  · have hveq : v = [] := List.isEmpty_iff.mp hv
    subst hveq
    simp [hv]
  · rw [if_neg hv]
    have h1 : (hexEncode k ++ 95 :: 95 :: v == hexEncode k) = false := by
      rw [beq_eq_false_iff_ne]
      intro hc
      have h2 := congrArg List.length hc
      simp at h2
    rw [if_neg (by simp [h1])]
    have h2 : isPre (hexEncode k ++ [95, 95]) (hexEncode k ++ 95 :: 95 :: v) = true := by
      rw [show (hexEncode k ++ 95 :: 95 :: v) = (hexEncode k ++ [95, 95]) ++ v by simp]
      exact isPre_append_right _ _
    rw [if_pos h2]
    congr 1
    rw [show (hexEncode k ++ 95 :: 95 :: v) = (hexEncode k ++ [95, 95]) ++ v by simp]
    rw [List.drop_left' (by simp)]

theorem vff_ne (k' k v : Bytes) (hne : hexEncode k' ≠ hexEncode k) :
    versionFromFname (hexEncode k') (fnameFor k v) = none := by
  unfold versionFromFname fnameFor
  by_cases hv : v.isEmpty
  · rw [if_pos hv]
    have h1 : (hexEncode k == hexEncode k') = false :=
      beq_eq_false_iff_ne.mpr (fun hc => hne hc.symm)
    rw [if_neg (by simp [h1])]
    have h2 : isPre (hexEncode k' ++ [95, 95]) (hexEncode k) = false := by
      cases hp : isPre (hexEncode k' ++ [95, 95]) (hexEncode k) with
      | false => rfl
      | true =>
        have h95 : (95 : Nat) ∈ hexEncode k := mem_of_isPre hp (by simp)
        exact absurd rfl (hex_no95 k 95 h95)
    rw [if_neg (by simp [h2])]
  · rw [if_neg hv]
    have h1 : (hexEncode k ++ 95 :: 95 :: v == hexEncode k') = false := by
      rw [beq_eq_false_iff_ne]
      intro hc
      have h95m : (95 : Nat) ∈ hexEncode k ++ 95 :: 95 :: v := by simp
      rw [hc] at h95m
      exact hex_no95 k' 95 h95m rfl
    rw [if_neg (by simp [h1])]
    have h2 : isPre (hexEncode k' ++ [95, 95]) (hexEncode k ++ 95 :: 95 :: v) = false := by
      cases hp : isPre (hexEncode k' ++ [95, 95]) (hexEncode k ++ 95 :: 95 :: v) with
      | false => rfl
      | true =>
        exact absurd (pre95 (hexEncode k') (hexEncode k) v (hex_no95 k') (hex_no95 k) hp) hne
    rw [if_neg (by simp [h2])]

theorem vff_inv (k : Bytes) {fn v : Bytes}
    (hjunk : fn ≠ hexEncode k ++ [95, 95])
    (h : versionFromFname (hexEncode k) fn = some v) : fn = fnameFor k v := by
  unfold versionFromFname at h
  by_cases h1 : (fn == hexEncode k) = true
  · rw [if_pos (by simp [h1])] at h
    injection h with h2
    rw [← h2]
    simp only [fnameFor, List.isEmpty_nil, if_true]
    exact beq_iff_eq.mp h1
  · rw [if_neg (by simp [h1])] at h
    by_cases h2 : isPre (hexEncode k ++ [95, 95]) fn = true
    · rw [if_pos h2] at h
      injection h with h3
      have hlen : (hexEncode k ++ [95, 95] : Bytes).length = (hexEncode k).length + 2 := by
        simp
      have h4 := isPre_drop h2
      rw [hlen, h3] at h4
      have hvne : ¬ v.isEmpty = true := by
        intro hve
        rw [List.isEmpty_iff.mp hve] at h4
        simp only [List.append_nil] at h4
        exact hjunk h4
      unfold fnameFor
      rw [if_neg hvne, h4]
      simp
    · rw [if_neg h2] at h
      cases h

theorem lv_filterMap (s : FS) (b k : Bytes) :
    listVersions s b k = s.filterMap (contrib b k) := by
  induction s with
  | nil => rfl
  | cons f rest ih =>
    unfold listVersions at *
    simp only [List.filter_cons, List.filterMap_cons]
    by_cases hc : (f.bucket == b && f.shard == shardOf (hexEncode k)) = true
    · simp only [hc, if_true, List.filterMap_cons, contrib]
      cases versionFromFname (hexEncode k) f.fname <;> simp [ih]
    · simp only [hc, Bool.false_eq_true, if_false, contrib]
      simp only [Bool.not_eq_true] at hc
      simp [hc, ih]

theorem isPre_refl (x : Bytes) : isPre x x = true := by
  have h := isPre_append_right x []
  simpa using h

theorem vff_junk (k : Bytes) :
    versionFromFname (hexEncode k) (hexEncode k ++ [95, 95]) = some [] := by
  unfold versionFromFname
  rw [if_neg (by
    intro hcc
    rw [beq_iff_eq] at hcc
    have h2 := congrArg List.length hcc
    simp at h2)]
  rw [if_pos (isPre_refl _)]
  rw [show (hexEncode k ++ [95, 95] : Bytes) = (hexEncode k ++ [95, 95]) ++ [] by simp]
  rw [List.drop_left' (by simp)]

theorem contrib_some_iff (f : FileRec) (b k v : Bytes)
    (hjunk : v = [] → f.fname ≠ hexEncode k ++ [95, 95]) :
    contrib b k f = some v ↔ matchPath b (shardOf (hexEncode k)) (fnameFor k v) f = true := by
  constructor
  · intro h
    unfold contrib at h
    by_cases hc : (f.bucket == b && f.shard == shardOf (hexEncode k)) = true
    · rw [if_pos hc] at h
      have hfn : f.fname = fnameFor k v := by
        by_cases hcontra : f.fname = hexEncode k ++ [95, 95]
        · rw [hcontra, vff_junk] at h
          injection h with h2
          exact absurd hcontra (hjunk h2.symm)
        · exact vff_inv k hcontra h
      simp only [Bool.and_eq_true, beq_iff_eq] at hc
      unfold matchPath
      simp [hc.1, hc.2, hfn]
    · rw [if_neg hc] at h
      cases h
  · intro h
    unfold matchPath at h
    simp only [Bool.and_eq_true, beq_iff_eq] at h
    obtain ⟨⟨hb1, hb2⟩, hb3⟩ := h
    unfold contrib
    rw [if_pos (by simp [hb1, hb2])]
    rw [hb3]
    exact vff_self k v

theorem filterMap_del {α β : Type} [BEq β] [LawfulBEq β] (g : α → Option β) (P : α → Bool)
    (v : β) : ∀ l : List α, (∀ x ∈ l, (g x = some v ↔ P x = true)) →
    (l.filter (fun x => !(P x))).filterMap g = (l.filterMap g).filter (fun w => !(w == v)) := by
  intro l
  induction l with
  | nil => intro _; rfl
  | cons x rest ih =>
    intro hiff
    have hiff2 := fun y hy => hiff y (List.mem_cons_of_mem _ hy)
    simp only [List.filter_cons, List.filterMap_cons]
    by_cases hP : P x = true
    · simp only [hP, Bool.not_true, Bool.false_eq_true, if_false]
      rw [(hiff x (List.mem_cons_self _ _)).mpr hP]
      simp only [List.filter_cons, beq_self_eq_true, Bool.not_true, Bool.false_eq_true,
        if_false]
      exact ih hiff2
    · have hPf : P x = false := by
        cases h2 : P x
        · rfl
        · exact absurd h2 hP
      simp only [hPf, Bool.not_false, if_true, List.filterMap_cons]
      cases hg : g x with
      | none => exact ih hiff2
      | some w =>
        have hwv : (w == v) = false := by
          rw [beq_eq_false_iff_ne]
          intro hc
          subst hc
          exact hP ((hiff x (List.mem_cons_self _ _)).mp hg)
        rw [List.filter_cons]
        simp only [hwv, Bool.not_false, if_true]
        rw [ih hiff2]

theorem filterMap_del_none {α β : Type} (g : α → Option β) (P : α → Bool) :
    ∀ l : List α, (∀ x ∈ l, P x = true → g x = none) →
    (l.filter (fun x => !(P x))).filterMap g = l.filterMap g := by
  intro l
  induction l with
  | nil => intro _; rfl
  | cons x rest ih =>
    intro hnone
    have hnone2 := fun y hy => hnone y (List.mem_cons_of_mem _ hy)
    simp only [List.filter_cons, List.filterMap_cons]
    by_cases hP : P x = true
    · simp only [hP, Bool.not_true, Bool.false_eq_true, if_false]
      rw [hnone x (List.mem_cons_self _ _) hP]
      exact ih hnone2
    · have hPf : P x = false := by
        cases h2 : P x
        · rfl
        · exact absurd h2 hP
      simp only [hPf, Bool.not_false, if_true, List.filterMap_cons]
      cases hg : g x with
      | none => exact ih hnone2
      | some w => rw [ih hnone2]

theorem lv_delFile (s : FS) (b k v : Bytes)
    (hjunk : v = [] → ∀ f ∈ s, f.fname ≠ hexEncode k ++ [95, 95]) :
    listVersions (delFile s b (shardOf (hexEncode k)) (fnameFor k v)) b k =
      (listVersions s b k).filter (fun w => !(w == v)) := by
  rw [lv_filterMap, lv_filterMap]
  unfold delFile
  apply filterMap_del
  intro f hf
  exact contrib_some_iff f b k v (fun hv => hjunk hv f hf)

theorem lv_delFile_other (s : FS) (b k v b2 k2 : Bytes)
    (h : ¬(b2 = b ∧ hexEncode k2 = hexEncode k)) :
    listVersions (delFile s b (shardOf (hexEncode k)) (fnameFor k v)) b2 k2 =
      listVersions s b2 k2 := by
  rw [lv_filterMap, lv_filterMap]
  unfold delFile
  apply filterMap_del_none
  intro f _ hP
  unfold matchPath at hP
  simp only [Bool.and_eq_true, beq_iff_eq] at hP
  obtain ⟨⟨hb1, _⟩, hb3⟩ := hP
  unfold contrib
  by_cases hcb : (f.bucket == b2 && f.shard == shardOf (hexEncode k2)) = true
  · rw [if_pos hcb]
    simp only [Bool.and_eq_true, beq_iff_eq] at hcb
    have hbb : b2 = b := by rw [← hcb.1, hb1]
    have hhex : hexEncode k2 ≠ hexEncode k := fun hc => h ⟨hbb, hc⟩
    rw [hb3]
    exact vff_ne k2 k v hhex
  · rw [if_neg hcb]

theorem contrib_new (b k v d : Bytes) :
    contrib b k ⟨b, shardOf (hexEncode k), fnameFor k v, d⟩ = some v := by
  unfold contrib
  rw [if_pos (by simp)]
  exact vff_self k v

theorem contrib_new_other (b k v d b2 k2 : Bytes)
    (h : ¬(b2 = b ∧ hexEncode k2 = hexEncode k)) :
    contrib b2 k2 ⟨b, shardOf (hexEncode k), fnameFor k v, d⟩ = none := by
  unfold contrib
  by_cases hcb : ((⟨b, shardOf (hexEncode k), fnameFor k v, d⟩ : FileRec).bucket == b2 &&
      (⟨b, shardOf (hexEncode k), fnameFor k v, d⟩ : FileRec).shard ==
        shardOf (hexEncode k2)) = true
  · rw [if_pos hcb]
    simp only [Bool.and_eq_true, beq_iff_eq] at hcb
    have hbb : b2 = b := hcb.1.symm
    have hhex : hexEncode k2 ≠ hexEncode k := fun hc => h ⟨hbb, hc⟩
    exact vff_ne k2 k v hhex
  · rw [if_neg hcb]

theorem lv_setFile (s : FS) (b k v d : Bytes)
    (hjunk : v = [] → ∀ f ∈ s, f.fname ≠ hexEncode k ++ [95, 95]) :
    listVersions (setFile s b (shardOf (hexEncode k)) (fnameFor k v) d) b k =
      (listVersions s b k).filter (fun w => !(w == v)) ++ [v] := by
  unfold setFile
  rw [lv_filterMap, List.filterMap_append, ← lv_filterMap, lv_delFile s b k v hjunk]
  congr 1
  simp only [List.filterMap_cons, List.filterMap_nil, contrib_new]

theorem lv_setFile_other (s : FS) (b k v d b2 k2 : Bytes)
    (h : ¬(b2 = b ∧ hexEncode k2 = hexEncode k)) :
    listVersions (setFile s b (shardOf (hexEncode k)) (fnameFor k v) d) b2 k2 =
      listVersions s b2 k2 := by
  unfold setFile
  rw [lv_filterMap, List.filterMap_append, ← lv_filterMap, lv_delFile_other s b k v b2 k2 h]
  simp only [List.filterMap_cons, List.filterMap_nil, contrib_new_other b k v d b2 k2 h,
    List.append_nil]

theorem fname_not_junk (k v k2 : Bytes) : fnameFor k v ≠ hexEncode k2 ++ [95, 95] := by
  unfold fnameFor
  by_cases hv : v.isEmpty
  · rw [if_pos hv]
    intro hc
    have h95 : (95 : Nat) ∈ hexEncode k := by
      rw [hc]
      simp
    exact hex_no95 k 95 h95 rfl
  · rw [if_neg hv]
    intro hc
    have hpre : isPre (hexEncode k2 ++ [95, 95]) (hexEncode k ++ 95 :: 95 :: v) = true := by
      rw [hc]
      exact isPre_refl _
    have hhex := pre95 (hexEncode k2) (hexEncode k) v (hex_no95 k2) (hex_no95 k) hpre
    rw [← hhex] at hc
    have h2 : (95 : Nat) :: 95 :: v = [95, 95] := by
      have h3 := List.append_cancel_left hc
      exact h3
    simp only [List.cons.injEq] at h2
    rw [h2.2.2] at hv
    simp at hv

theorem WF_delFile (s : FS) (b sh fn : Bytes) (h : WF s) : WF (delFile s b sh fn) :=
  List.Pairwise.sublist (List.filter_sublist _) h

theorem WF_setFile (s : FS) (b sh fn c : Bytes) (h : WF s) : WF (setFile s b sh fn c) := by
  unfold setFile
  rw [WF, List.pairwise_append]
  refine ⟨WF_delFile s b sh fn h, List.pairwise_singleton _ _, ?_⟩
  intro f hf g hg
  simp only [List.mem_singleton] at hg
  subst hg
  have hmatch := List.of_mem_filter hf
  simp only [Bool.not_eq_eq_eq_not, Bool.not_true] at hmatch
  unfold matchPath at hmatch
  intro hc
  obtain ⟨h1, h2, h3⟩ := hc
  rw [h1, h2, h3] at hmatch
  simp at hmatch

theorem NoJunk_delFile (s : FS) (b sh fn : Bytes) (h : NoJunk s) : NoJunk (delFile s b sh fn) :=
  fun f hf => h f (List.mem_of_mem_filter hf)

theorem NoJunk_setFile (s : FS) (b k v d : Bytes) (h : NoJunk s) :
    NoJunk (setFile s b (shardOf (hexEncode k)) (fnameFor k v) d) := by
  intro f hf k2
  unfold setFile at hf
  rcases List.mem_append.mp hf with h1 | h1
  · exact NoJunk_delFile s b _ _ h f h1 k2
  · simp only [List.mem_singleton] at h1
    subst h1
    exact fname_not_junk k v k2

theorem WF_foldl_delFile (b sh : Bytes) (k : Bytes) :
    ∀ (D : List Bytes) (s : FS), WF s →
    WF (D.foldl (fun st v => delFile st b sh (fnameFor k v)) s) := by
  intro D
  induction D with
  | nil => intro s h; exact h
  | cons v D ih => intro s h; exact ih _ (WF_delFile s b sh _ h)

theorem NoJunk_foldl_delFile (b sh : Bytes) (k : Bytes) :
    ∀ (D : List Bytes) (s : FS), NoJunk s →
    NoJunk (D.foldl (fun st v => delFile st b sh (fnameFor k v)) s) := by
  intro D
  induction D with
  | nil => intro s h; exact h
  | cons v D ih => intro s h; exact ih _ (NoJunk_delFile s b sh _ h)

theorem Reachable_inv {s : FS} (h : Reachable s) : WF s ∧ NoJunk s := by
  induction h with
  | empty => exact ⟨List.Pairwise.nil, fun f hf => absurd hf (by simp)⟩
  | put b key data vid _ ih =>
    unfold putOp
    exact ⟨WF_foldl_delFile b _ key _ _ (WF_setFile _ _ _ _ _ ih.1),
      NoJunk_foldl_delFile b _ key _ _ (NoJunk_setFile _ b key vid data ih.2)⟩
  | rem b key vid _ ih =>
    unfold removeOp
    by_cases hv : vid.isEmpty
    · rw [if_pos hv]
      exact ⟨WF_foldl_delFile b _ key _ _ ih.1, NoJunk_foldl_delFile b _ key _ _ ih.2⟩
    · rw [if_neg hv]
      exact ⟨WF_delFile _ _ _ _ ih.1, NoJunk_delFile _ _ _ _ ih.2⟩

theorem lv_nodup (s : FS) (b k : Bytes) (hwf : WF s) (hjunk : NoJunk s) :
    (listVersions s b k).Nodup := by
  rw [lv_filterMap]
  induction s with
  | nil => exact List.nodup_nil
  | cons f rest ih =>
    have hwf2 := (List.pairwise_cons.mp hwf).2
    have hhead := (List.pairwise_cons.mp hwf).1
    have hjunk2 : NoJunk rest := fun g hg => hjunk g (List.mem_cons_of_mem _ hg)
    simp only [List.filterMap_cons]
    cases hg : contrib b k f with
    | none => exact ih hwf2 hjunk2
    | some w =>
      rw [List.nodup_cons]
      refine ⟨?_, ih hwf2 hjunk2⟩
      intro hmem
      rcases List.mem_filterMap.mp hmem with ⟨g, hgmem, hgw⟩
      have hfm := (contrib_some_iff f b k w (fun _ => hjunk f (List.mem_cons_self _ _) k)).mp hg
      have hgm := (contrib_some_iff g b k w (fun _ => hjunk2 g hgmem k)).mp hgw
      unfold matchPath at hfm hgm
      simp only [Bool.and_eq_true, beq_iff_eq] at hfm hgm
      exact hhead g hgmem ⟨by rw [hfm.1.1, hgm.1.1], by rw [hfm.1.2, hgm.1.2],
        by rw [hfm.2, hgm.2]⟩

theorem fileGet_setFile (s : FS) (b sh fn c : Bytes) :
    fileGet (setFile s b sh fn c) b sh fn = some c := by
  unfold fileGet setFile
  rw [List.find?_append]
  have h1 : (delFile s b sh fn).find? (matchPath b sh fn) = none := by
    rw [List.find?_eq_none]
    intro x hx
    have h2 := List.of_mem_filter hx
    simp only [Bool.not_eq_eq_eq_not, Bool.not_true] at h2
    simp [h2]
  rw [h1]
  have h3 : matchPath b sh fn ⟨b, sh, fn, c⟩ = true := by
    unfold matchPath
    simp
  simp [List.find?_cons, h3]

theorem lv_foldl_delFile (b k : Bytes) : ∀ (D : List Bytes) (s : FS), NoJunk s →
    listVersions (D.foldl (fun st v => delFile st b (shardOf (hexEncode k)) (fnameFor k v)) s)
        b k =
      (listVersions s b k).filter (fun w => !(decide (w ∈ D))) := by
  intro D
  induction D with
  | nil =>
    intro s _
    simp
  | cons v D ih =>
    intro s hjunk
    simp only [List.foldl_cons]
    rw [ih _ (NoJunk_delFile s b _ _ hjunk)]
    rw [lv_delFile s b k v (fun _ f hf => hjunk f hf k)]
    rw [List.filter_filter]
    apply List.filter_congr
    intro w _
    by_cases hv : w = v
    · subst hv
      simp
    · by_cases hd : w ∈ D <;> simp [hv, hd]

theorem lv_foldl_delFile_other (b k b2 k2 : Bytes)
    (h : ¬(b2 = b ∧ hexEncode k2 = hexEncode k)) :
    ∀ (D : List Bytes) (s : FS),
    listVersions (D.foldl (fun st v => delFile st b (shardOf (hexEncode k)) (fnameFor k v)) s)
        b2 k2 =
      listVersions s b2 k2 := by
  intro D
  induction D with
  | nil => intro s; rfl
  | cons v D ih =>
    intro s
    simp only [List.foldl_cons]
    rw [ih _, lv_delFile_other s b k v b2 k2 h]

theorem lv_store_sublist {s1 s2 : FS} (h : List.Sublist s1 s2) (b k : Bytes) :
    List.Sublist (listVersions s1 b k) (listVersions s2 b k) := by
  rw [lv_filterMap, lv_filterMap]
  exact List.Sublist.filterMap _ h

theorem foldl_delFile_sublist (b sh : Bytes) (k : Bytes) : ∀ (D : List Bytes) (s : FS),
    List.Sublist (D.foldl (fun st v => delFile st b sh (fnameFor k v)) s) s := by
  intro D
  induction D with
  | nil => intro s; exact List.Sublist.refl _
  | cons v D ih =>
    intro s
    simp only [List.foldl_cons]
    exact List.Sublist.trans (ih _) (List.filter_sublist _)

theorem lv_hex_congr {k2 k : Bytes} (h : hexEncode k2 = hexEncode k) (s : FS) (b : Bytes) :
    listVersions s b k2 = listVersions s b k := by
  unfold listVersions
  rw [h]

theorem WF_putOp (s : FS) (b k data vid : Bytes) (h : WF s) : WF (putOp s b k data vid) := by
  unfold putOp
  exact WF_foldl_delFile b _ k _ _ (WF_setFile _ _ _ _ _ h)

theorem NoJunk_putOp (s : FS) (b k data vid : Bytes) (h : NoJunk s) :
    NoJunk (putOp s b k data vid) := by
  unfold putOp
  exact NoJunk_foldl_delFile b _ k _ _ (NoJunk_setFile _ b k vid data h)

theorem lv_putOp_self (s : FS) (b k data vid : Bytes) (hwf : WF s) (hjunk : NoJunk s) :
    List.Perm (listVersions (putOp s b k data vid) b k)
      ((List.insertionSort geRel
        (listVersions (setFile s b (shardOf (hexEncode k)) (fnameFor k vid) data) b k)).take
        3) := by
  have hwf1 := WF_setFile s b (shardOf (hexEncode k)) (fnameFor k vid) data hwf
  have hjunk1 := NoJunk_setFile s b k vid data hjunk
  set s1 := setFile s b (shardOf (hexEncode k)) (fnameFor k vid) data with hs1
  set V1 := listVersions s1 b k with hV1
  have hnd : V1.Nodup := lv_nodup s1 b k hwf1 hjunk1
  have hndS : (List.insertionSort geRel V1).Nodup :=
    (List.perm_insertionSort geRel V1).nodup_iff.mpr hnd
  unfold putOp
  rw [← hs1, ← hV1]
  rw [lv_foldl_delFile b k _ s1 hjunk1]
  have hsplit : List.insertionSort geRel V1 =
      (List.insertionSort geRel V1).take 3 ++ (List.insertionSort geRel V1).drop 3 :=
    (List.take_append_drop 3 _).symm
  have hperm : List.Perm
      (V1.filter (fun w => !(decide (w ∈ (List.insertionSort geRel V1).drop 3))))
      ((List.insertionSort geRel V1).filter
        (fun w => !(decide (w ∈ (List.insertionSort geRel V1).drop 3)))) :=
    (List.perm_insertionSort geRel V1).symm.filter _
  refine hperm.trans ?_
  rw [show (List.insertionSort geRel V1).filter
        (fun w => !(decide (w ∈ (List.insertionSort geRel V1).drop 3))) =
      ((List.insertionSort geRel V1).take 3 ++ (List.insertionSort geRel V1).drop 3).filter
        (fun w => !(decide (w ∈ (List.insertionSort geRel V1).drop 3))) from by
    rw [← hsplit]]
  rw [List.filter_append]
  have h1 : ((List.insertionSort geRel V1).drop 3).filter
      (fun w => !(decide (w ∈ (List.insertionSort geRel V1).drop 3))) = [] := by
    rw [List.filter_eq_nil_iff]
    intro w hw
    simp [hw]
  have hnd2 : ((List.insertionSort geRel V1).take 3 ++
      (List.insertionSort geRel V1).drop 3).Nodup := by
    rw [← hsplit]
    exact hndS
  have hdisj := (List.nodup_append.mp hnd2).2.2
  have h2 : ((List.insertionSort geRel V1).take 3).filter
      (fun w => !(decide (w ∈ (List.insertionSort geRel V1).drop 3))) =
      (List.insertionSort geRel V1).take 3 := by
    rw [List.filter_eq_self]
    intro w hw
    simpa using hdisj hw
  rw [h1, h2, List.append_nil]

theorem lv_putOp_other (s : FS) (b k data vid b2 k2 : Bytes)
    (h : ¬(b2 = b ∧ hexEncode k2 = hexEncode k)) :
    listVersions (putOp s b k data vid) b2 k2 = listVersions s b2 k2 := by
  unfold putOp
  rw [lv_foldl_delFile_other b k b2 k2 h, lv_setFile_other s b k vid data b2 k2 h]

theorem bound3 {s : FS} (h : Reachable s) : ∀ b k : Bytes,
    (listVersions s b k).length ≤ 3 := by
  induction h with
  | empty => intro b k; simp [listVersions]
  | @put s0 b key data vid hr ih =>
    intro b2 k2
    by_cases hsame : b2 = b ∧ hexEncode k2 = hexEncode key
    · obtain ⟨hb, hx⟩ := hsame
      subst hb
      rw [lv_hex_congr hx]
      obtain ⟨hwf, hjunk⟩ := Reachable_inv hr
      have hperm := lv_putOp_self _ b2 key data vid hwf hjunk
      rw [hperm.length_eq, List.length_take]
      omega
    · rw [lv_putOp_other _ b key data vid b2 k2 hsame]
      exact ih b2 k2
  | @rem s0 b key vid hr ih =>
    intro b2 k2
    unfold removeOp
    by_cases hv : vid.isEmpty
    · rw [if_pos hv]
      have hsub := lv_store_sublist
        (foldl_delFile_sublist b (shardOf (hexEncode key)) key (listVersions s0 b key) s0) b2 k2
      exact Nat.le_trans hsub.length_le (ih b2 k2)
    · rw [if_neg hv]
      have hsub : List.Sublist (delFile s0 b (shardOf (hexEncode key)) (fnameFor key vid)) s0 :=
        List.filter_sublist s0
      exact Nat.le_trans ((lv_store_sublist hsub b2 k2).length_le) (ih b2 k2)

/-- C1 (amended): in any reachable state in which key `k` has no versioned
blobs (all its surviving versions are the unversioned `""` member), a `put`
with empty version id is immediately observable: `get` returns the bytes,
`sizeOf` their length, and `exists` is true.  (`exists` is true after any
put; `get`/`sizeOf` need the no-versioned-blob premise — see
`c1_counterexample`.) -/
theorem c1_put_get_roundtrip (s : FS) (b k data : Bytes) (hr : Reachable s)
    (hnov : ∀ v ∈ listVersions s b k, v = []) :
    getOp (putOp s b k data []) b k [] = some data ∧
      sizeOfOp (putOp s b k data []) b k [] = some data.length ∧
      existsOp (putOp s b k data []) b k = true := by
  obtain ⟨_, hjunk⟩ := Reachable_inv hr
  have hV1 : listVersions (setFile s b (shardOf (hexEncode k)) (fnameFor k []) data) b k =
      [[]] := by
    rw [lv_setFile s b k [] data (fun _ f hf => hjunk f hf k)]
    have hfil : (listVersions s b k).filter (fun w => !(w == ([] : Bytes))) = [] := by
      rw [List.filter_eq_nil_iff]
      intro w hw
      simp [hnov w hw]
    rw [hfil]
    rfl
  have hput : putOp s b k data [] =
      setFile s b (shardOf (hexEncode k)) (fnameFor k []) data := by
    unfold putOp
    rw [hV1]
    rfl
  refine ⟨?_, ?_, ?_⟩
  · unfold getOp
    rw [hput, hV1]
    exact fileGet_setFile s b (shardOf (hexEncode k)) (fnameFor k []) data
  · unfold sizeOfOp
    rw [hput, hV1]
    have h2 : Option.map List.length
        (fileGet (setFile s b (shardOf (hexEncode k)) (fnameFor k []) data) b
          (shardOf (hexEncode k)) (fnameFor k [])) = some data.length := by
      rw [fileGet_setFile]
      rfl
    exact h2
  · unfold existsOp
    rw [hput, hV1]
    rfl

/-- Witness for C1 at a concrete fresh key in the empty store. -/
theorem c1_witness :
    getOp (putOp [] [98] [107] [1, 2, 3] []) [98] [107] [] = some [1, 2, 3] ∧
      sizeOfOp (putOp [] [98] [107] [1, 2, 3] []) [98] [107] [] =
        some ([1, 2, 3] : Bytes).length ∧
      existsOp (putOp [] [98] [107] [1, 2, 3] []) [98] [107] = true :=
  c1_put_get_roundtrip [] [98] [107] [1, 2, 3] Reachable.empty (by simp [listVersions])

/-- Counterexample to C1 as stated: in the reachable state holding a
versioned blob `"1"` for key `k`, an unversioned `put` is shadowed —
`get(b, k)` resolves the empty version id to the lexicographically greatest
version `"1"` and returns the old bytes, and `sizeOf` their length. -/
theorem c1_counterexample :
    Reachable (putOp [] [98] [107] [120] [49]) ∧
      getOp (putOp (putOp [] [98] [107] [120] [49]) [98] [107] [121, 122] []) [98] [107] [] =
        some [120] ∧
      sizeOfOp (putOp (putOp [] [98] [107] [120] [49]) [98] [107] [121, 122] []) [98] [107]
          [] ≠ some ([121, 122] : Bytes).length :=
  ⟨Reachable.put [98] [107] [120] [49] Reachable.empty, by decide, by decide⟩

theorem take_orderedInsert {α : Type} (r : α → α → Prop) [DecidableRel r] (v : α) :
    ∀ (n : Nat) (S : List α),
    (List.orderedInsert r v (S.take n)).take n = (List.orderedInsert r v S).take n := by
  intro n S
  induction S generalizing n with
  | nil => simp
  | cons x xs ih =>
    cases n with
    | zero => simp
    | succ n =>
      rw [List.take_succ_cons]
      by_cases hr : r v x
      · simp only [List.orderedInsert, hr, if_true]
        rw [List.take_succ_cons, List.take_succ_cons]
        cases n with
        | zero => simp
        | succ m =>
          rw [List.take_succ_cons, List.take_succ_cons, List.take_take]
          rw [Nat.min_eq_left (Nat.le_succ m)]
      · simp only [List.orderedInsert, hr, if_false]
        rw [List.take_succ_cons, List.take_succ_cons, ih n]

theorem putSeq (b k : Bytes) : ∀ (items : List (Bytes × Bytes)) (s : FS) (done : List Bytes),
    WF s → NoJunk s →
    List.Perm (listVersions s b k) ((List.insertionSort geRel done).take 3) →
    done.Nodup →
    (items.map Prod.snd).Nodup →
    (∀ v ∈ items.map Prod.snd, v ∉ done) →
    List.Perm
      (listVersions (items.foldl (fun st it => putOp st b k it.1 it.2) s) b k)
      ((List.insertionSort geRel (done ++ items.map Prod.snd)).take 3) := by
  intro items
  induction items with
  | nil =>
    intro s done _ _ hperm _ _ _
    simpa using hperm
  | cons it items ih =>
    intro s done hwf hjunk hperm hnd hndit hfresh
    simp only [List.foldl_cons, List.map_cons]
    have hv_not : it.2 ∉ done := hfresh it.2 (by simp)
    have hstep : List.Perm (listVersions (putOp s b k it.1 it.2) b k)
        ((List.insertionSort geRel (done ++ [it.2])).take 3) := by
      have h1 := lv_putOp_self s b k it.1 it.2 hwf hjunk
      have hV1 : listVersions (setFile s b (shardOf (hexEncode k)) (fnameFor k it.2) it.1)
          b k = (listVersions s b k).filter (fun w => !(w == it.2)) ++ [it.2] :=
        lv_setFile s b k it.2 it.1 (fun _ f hf => hjunk f hf k)
      have hfilter : (listVersions s b k).filter (fun w => !(w == it.2)) =
          listVersions s b k := by
        rw [List.filter_eq_self]
        intro w hw
        have hwdone : w ∈ done := by
          have h2 := hperm.mem_iff.mp hw
          have h3 := (List.take_sublist 3 (List.insertionSort geRel done)).subset h2
          exact (List.perm_insertionSort geRel done).mem_iff.mp h3
        have hne : w ≠ it.2 := fun hc => hv_not (hc ▸ hwdone)
        simp [hne]
      have hV1perm : List.Perm
          (listVersions (setFile s b (shardOf (hexEncode k)) (fnameFor k it.2) it.1) b k)
          (it.2 :: (List.insertionSort geRel done).take 3) := by
        rw [hV1, hfilter]
        exact (List.perm_append_singleton it.2 (listVersions s b k)).trans (hperm.cons it.2)
      have hsortEq : List.insertionSort geRel
          (listVersions (setFile s b (shardOf (hexEncode k)) (fnameFor k it.2) it.1) b k) =
          List.insertionSort geRel (it.2 :: (List.insertionSort geRel done).take 3) :=
        List.eq_of_perm_of_sorted
          (((List.perm_insertionSort geRel _).trans hV1perm).trans
            (List.perm_insertionSort geRel _).symm)
          (List.sorted_insertionSort geRel _) (List.sorted_insertionSort geRel _)
      have hT3sorted : List.Sorted geRel ((List.insertionSort geRel done).take 3) :=
        List.Pairwise.sublist (List.take_sublist 3 _) (List.sorted_insertionSort geRel done)
      have hsort2 : List.insertionSort geRel
          (it.2 :: (List.insertionSort geRel done).take 3) =
          List.orderedInsert geRel it.2 ((List.insertionSort geRel done).take 3) := by
        show List.orderedInsert geRel it.2
          (List.insertionSort geRel ((List.insertionSort geRel done).take 3)) = _
        rw [List.Sorted.insertionSort_eq hT3sorted]
      have hswap : List.insertionSort geRel (it.2 :: done) =
          List.insertionSort geRel (done ++ [it.2]) :=
        List.eq_of_perm_of_sorted
          ((List.perm_insertionSort geRel _).trans
            (((List.perm_append_singleton it.2 done).symm.trans
              (List.perm_insertionSort geRel _).symm)))
          (List.sorted_insertionSort geRel _) (List.sorted_insertionSort geRel _)
      rw [hsortEq, hsort2, take_orderedInsert geRel it.2 3 (List.insertionSort geRel done)]
        at h1
      have hoi : List.orderedInsert geRel it.2 (List.insertionSort geRel done) =
          List.insertionSort geRel (it.2 :: done) := rfl
      rw [hoi, hswap] at h1
      exact h1
    have hnd2 : (done ++ [it.2]).Nodup := by
      rw [List.nodup_append]
      refine ⟨hnd, List.nodup_singleton _, ?_⟩
      intro a ha hmem
      simp only [List.mem_singleton] at hmem
      exact hv_not (hmem ▸ ha)
    have hfresh2 : ∀ v ∈ items.map Prod.snd, v ∉ done ++ [it.2] := by
      intro v hv
      rw [List.mem_append]
      rintro (h1 | h1)
      · exact hfresh v (List.mem_cons_of_mem _ hv) h1
      · simp only [List.mem_singleton] at h1
        have := (List.nodup_cons.mp hndit).1
        exact this (h1 ▸ hv)
    have happ := ih (putOp s b k it.1 it.2) (done ++ [it.2])
      (WF_putOp _ _ _ _ _ hwf) (NoJunk_putOp _ _ _ _ _ hjunk) hstep hnd2
      (List.nodup_cons.mp hndit).2 hfresh2
    rw [show done ++ it.2 :: items.map Prod.snd = (done ++ [it.2]) ++ items.map Prod.snd by
      simp]
    exact happ

/-- C3: (a) from any reachable state in which key `k` has no versions, after
a sequence of at least four puts with pairwise-distinct non-empty version
ids, `listVersions` holds exactly 3 entries, the lexicographically greatest
3 of the inserted ids (as the descending sort's 3-prefix, up to directory
order); (b) more generally, after any put returns, every key of every
bucket has at most 3 versions at rest. -/
theorem c3_version_retention :
    (∀ (b k : Bytes) (items : List (Bytes × Bytes)) (s : FS),
        Reachable s → listVersions s b k = [] →
        (items.map Prod.snd).Nodup → (∀ it ∈ items, it.2 ≠ ([] : Bytes)) →
        4 ≤ items.length →
        (listVersions (items.foldl (fun st it => putOp st b k it.1 it.2) s) b k).length = 3 ∧
          List.Perm (listVersions (items.foldl (fun st it => putOp st b k it.1 it.2) s) b k)
            ((List.insertionSort geRel (items.map Prod.snd)).take 3)) ∧
    (∀ (s : FS) (b k data vid b2 k2 : Bytes), Reachable s →
        (listVersions (putOp s b k data vid) b2 k2).length ≤ 3) := by
  constructor
  · intro b k items s hr hempty hnd _ hlen
    obtain ⟨hwf, hjunk⟩ := Reachable_inv hr
    have h := putSeq b k items s [] hwf hjunk (by rw [hempty]; exact List.Perm.refl _)
      List.nodup_nil hnd (by intro v _ hc; simp at hc)
    rw [List.nil_append] at h
    refine ⟨?_, h⟩
    rw [h.length_eq, List.length_take, List.length_insertionSort, List.length_map]
    omega
  · intro s b k data vid b2 k2 hr
    exact bound3 (Reachable.put b k data vid hr) b2 k2

/-- Witness for C3 at spec scenario S6: six puts with version ids "1".."6"
on a fresh key leave exactly the versions "6","5","4". -/
theorem c3_witness :
    (listVersions
        (List.foldl (fun st it => putOp st [98] [107] it.1 it.2) []
          [([100], [49]), ([100], [50]), ([100], [51]), ([100], [52]), ([100], [53]),
            ([100], [54])])
        [98] [107]).length = 3 ∧
      List.Perm
        (listVersions
          (List.foldl (fun st it => putOp st [98] [107] it.1 it.2) []
            [([100], [49]), ([100], [50]), ([100], [51]), ([100], [52]), ([100], [53]),
              ([100], [54])])
          [98] [107])
        ((List.insertionSort geRel
          (List.map Prod.snd
            [([100], [49]), ([100], [50]), ([100], [51]), ([100], [52]), ([100], [53]),
              ([100], [54])])).take 3) :=
  c3_version_retention.1 [98] [107]
    [([100], [49]), ([100], [50]), ([100], [51]), ([100], [52]), ([100], [53]),
      ([100], [54])]
    [] Reachable.empty rfl (by decide) (by decide) (by decide)

theorem fnameFor_ne {k1 k2 : Bytes} (h : hexEncode k1 ≠ hexEncode k2) (v1 v2 : Bytes) :
    fnameFor k1 v1 ≠ fnameFor k2 v2 := by
  unfold fnameFor
  by_cases h1 : v1.isEmpty <;> by_cases h2 : v2.isEmpty
  · rw [if_pos h1, if_pos h2]
    exact h
  · rw [if_pos h1, if_neg h2]
    intro hc
    have h95 : (95 : Nat) ∈ hexEncode k1 := by
      rw [hc]
      simp
    exact hex_no95 k1 95 h95 rfl
  · rw [if_neg h1, if_pos h2]
    intro hc
    have h95 : (95 : Nat) ∈ hexEncode k2 := by
      rw [← hc]
      simp
    exact hex_no95 k2 95 h95 rfl
  · rw [if_neg h1, if_neg h2]
    intro hc
    have hpre : isPre (hexEncode k2 ++ [95, 95]) (hexEncode k1 ++ 95 :: 95 :: v1) = true := by
      rw [hc, show hexEncode k2 ++ 95 :: 95 :: v2 = (hexEncode k2 ++ [95, 95]) ++ v2 by simp]
      exact isPre_append_right _ _
    exact h (pre95 (hexEncode k2) (hexEncode k1) v1 (hex_no95 k2) (hex_no95 k1) hpre).symm

theorem putAll_shape (b : Bytes) :
    ∀ (items done : List (Bytes × Bytes × Bytes)),
    (∀ it ∈ done ++ items, ∀ c ∈ it.1, c < 256) →
    ((done ++ items).map Prod.fst).Nodup →
    items.foldl (fun st it => putOp st b it.1 it.2.1 it.2.2)
      (done.map (fun it =>
        (⟨b, shardOf (hexEncode it.1), fnameFor it.1 it.2.2, it.2.1⟩ : FileRec))) =
      (done ++ items).map (fun it =>
        (⟨b, shardOf (hexEncode it.1), fnameFor it.1 it.2.2, it.2.1⟩ : FileRec)) := by
  intro items
  induction items with
  | nil =>
    intro done _ _
    simp
  | cons it items ih =>
    intro done hb hnd
    simp only [List.foldl_cons]
    have hbit : ∀ c ∈ it.1, c < 256 := hb it (by simp)
    have hhexne : ∀ jt ∈ done, hexEncode jt.1 ≠ hexEncode it.1 := by
      intro jt hjt hc
      have hbjt : ∀ c ∈ jt.1, c < 256 := hb jt (by simp [hjt])
      have hkeyeq := hexEncode_inj hbjt hbit hc
      have h1 : (done.map Prod.fst ++ (it :: items).map Prod.fst).Nodup := by
        rw [← List.map_append]
        exact hnd
      exact List.disjoint_of_nodup_append h1 (List.mem_map_of_mem _ hjt)
        (by rw [hkeyeq]; simp)
    have hdel : delFile
        (done.map (fun jt =>
          (⟨b, shardOf (hexEncode jt.1), fnameFor jt.1 jt.2.2, jt.2.1⟩ : FileRec)))
        b (shardOf (hexEncode it.1)) (fnameFor it.1 it.2.2) =
        done.map (fun jt =>
          (⟨b, shardOf (hexEncode jt.1), fnameFor jt.1 jt.2.2, jt.2.1⟩ : FileRec)) := by
      unfold delFile
      rw [List.filter_eq_self]
      intro f hf
      rcases List.mem_map.mp hf with ⟨jt, hjt, hfeq⟩
      have hfn : f.fname = fnameFor jt.1 jt.2.2 := by rw [← hfeq]
      have hne := fnameFor_ne (hhexne jt hjt) jt.2.2 it.2.2
      unfold matchPath
      simp only [Bool.not_eq_eq_eq_not, Bool.not_true, Bool.and_eq_false_iff]
      right
      rw [beq_eq_false_iff_ne, hfn]
      exact hne
    have hlvS : listVersions
        (done.map (fun jt =>
          (⟨b, shardOf (hexEncode jt.1), fnameFor jt.1 jt.2.2, jt.2.1⟩ : FileRec)))
        b it.1 = [] := by
      rw [lv_filterMap]
      rw [List.filterMap_map]
      rw [List.filterMap_eq_nil_iff.mpr]
      intro jt hjt
      show contrib b it.1 _ = none
      unfold contrib
      by_cases hcb : ((⟨b, shardOf (hexEncode jt.1), fnameFor jt.1 jt.2.2, jt.2.1⟩ :
          FileRec).bucket == b &&
          (⟨b, shardOf (hexEncode jt.1), fnameFor jt.1 jt.2.2, jt.2.1⟩ : FileRec).shard ==
            shardOf (hexEncode it.1)) = true
      · rw [if_pos hcb]
        exact vff_ne it.1 jt.1 jt.2.2 (fun hc => hhexne jt hjt hc.symm)
      · rw [if_neg hcb]
    have hsetFile : setFile
        (done.map (fun jt =>
          (⟨b, shardOf (hexEncode jt.1), fnameFor jt.1 jt.2.2, jt.2.1⟩ : FileRec)))
        b (shardOf (hexEncode it.1)) (fnameFor it.1 it.2.2) it.2.1 =
        (done ++ [it]).map (fun jt =>
          (⟨b, shardOf (hexEncode jt.1), fnameFor jt.1 jt.2.2, jt.2.1⟩ : FileRec)) := by
      unfold setFile
      rw [hdel]
      simp
    have hlvS1 : listVersions
        ((done ++ [it]).map (fun jt =>
          (⟨b, shardOf (hexEncode jt.1), fnameFor jt.1 jt.2.2, jt.2.1⟩ : FileRec)))
        b it.1 = [it.2.2] := by
      have hjunkS : NoJunk (done.map (fun jt =>
          (⟨b, shardOf (hexEncode jt.1), fnameFor jt.1 jt.2.2, jt.2.1⟩ : FileRec))) := by
        intro f hf k2
        rcases List.mem_map.mp hf with ⟨jt, _, hfeq⟩
        have hfn : f.fname = fnameFor jt.1 jt.2.2 := by rw [← hfeq]
        rw [hfn]
        exact fname_not_junk jt.1 jt.2.2 k2
      have h2 := lv_setFile
        (done.map (fun jt =>
          (⟨b, shardOf (hexEncode jt.1), fnameFor jt.1 jt.2.2, jt.2.1⟩ : FileRec)))
        b it.1 it.2.2 it.2.1 (fun _ f hf => hjunkS f hf it.1)
      rw [hsetFile] at h2
      rw [h2, hlvS]
      rfl
    have hput : putOp
        (done.map (fun jt =>
          (⟨b, shardOf (hexEncode jt.1), fnameFor jt.1 jt.2.2, jt.2.1⟩ : FileRec)))
        b it.1 it.2.1 it.2.2 =
        (done ++ [it]).map (fun jt =>
          (⟨b, shardOf (hexEncode jt.1), fnameFor jt.1 jt.2.2, jt.2.1⟩ : FileRec)) := by
      unfold putOp
      rw [hsetFile, hlvS1]
      rfl
    rw [hput]
    have happ := ih (done ++ [it])
      (by
        intro jt hjt
        apply hb jt
        simp only [List.append_assoc, List.singleton_append] at hjt ⊢
        exact hjt)
      (by
        rw [show (done ++ [it]) ++ items = done ++ it :: items by simp]
        exact hnd)
    rw [show (done ++ [it]) ++ items = done ++ it :: items by simp] at happ
    exact happ

theorem listOp_map (b : Bytes) :
    ∀ items : List (Bytes × Bytes × Bytes),
    (∀ it ∈ items, ∀ c ∈ it.1, c < 256) →
    listOp (items.map (fun it =>
        (⟨b, shardOf (hexEncode it.1), fnameFor it.1 it.2.2, it.2.1⟩ : FileRec))) b =
      items.filterMap (fun it =>
        if it.2.2.isEmpty && !(hasDunder it.1) then some it.1 else none) := by
  intro items
  induction items with
  | nil => intro _; rfl
  | cons it rest ih =>
    intro hb
    have hbit : ∀ c ∈ it.1, c < 256 := hb it (by simp)
    have ihr := ih (fun jt hjt => hb jt (List.mem_cons_of_mem _ hjt))
    simp only [List.map_cons]
    show List.filterMap _ (_ :: _) = _
    by_cases hv : it.2.2.isEmpty
    · have hfn : fnameFor it.1 it.2.2 = hexEncode it.1 := by
        unfold fnameFor
        rw [if_pos hv]
      by_cases hd : hasDunder it.1
      · rw [List.filterMap_cons_none (by
          show (if ((⟨b, shardOf (hexEncode it.1), fnameFor it.1 it.2.2, it.2.1⟩ :
              FileRec).bucket == b) = true then
              match hexDecode (fnameFor it.1 it.2.2) with
              | some key => if hasDunder key then none else some key
              | none => none
            else none) = none
          rw [if_pos (by simp), hfn, hexDecode_hexEncode it.1 hbit]
          show (if hasDunder it.1 then none else some it.1) = none
          rw [if_pos hd])]
        rw [List.filterMap_cons_none (by
          show (if (it.2.2.isEmpty && !(hasDunder it.1)) = true then some it.1 else none) = none
          rw [if_neg (by simp [hd])])]
        exact ihr
      · rw [List.filterMap_cons_some (by
          show (if ((⟨b, shardOf (hexEncode it.1), fnameFor it.1 it.2.2, it.2.1⟩ :
              FileRec).bucket == b) = true then
              match hexDecode (fnameFor it.1 it.2.2) with
              | some key => if hasDunder key then none else some key
              | none => none
            else none) = some it.1
          rw [if_pos (by simp), hfn, hexDecode_hexEncode it.1 hbit]
          show (if hasDunder it.1 then none else some it.1) = some it.1
          rw [if_neg hd])]
        rw [List.filterMap_cons_some (by
          show (if (it.2.2.isEmpty && !(hasDunder it.1)) = true then some it.1 else none) =
            some it.1
          rw [if_pos (by simp [hv, hd])])]
        exact congrArg (List.cons it.1) ihr
    · have hfn : fnameFor it.1 it.2.2 = hexEncode it.1 ++ 95 :: 95 :: it.2.2 := by
        unfold fnameFor
        rw [if_neg hv]
      have hdec : hexDecode (fnameFor it.1 it.2.2) = none := by
        apply hexDecode_none_of_95
        rw [hfn]
        exact List.mem_append_right _ (List.mem_cons_self _ _)
      rw [List.filterMap_cons_none (by
        show (if ((⟨b, shardOf (hexEncode it.1), fnameFor it.1 it.2.2, it.2.1⟩ :
            FileRec).bucket == b) = true then
            match hexDecode (fnameFor it.1 it.2.2) with
            | some key => if hasDunder key then none else some key
            | none => none
          else none) = none
        rw [if_pos (by simp), hdec])]
      rw [List.filterMap_cons_none (by
        show (if (it.2.2.isEmpty && !(hasDunder it.1)) = true then some it.1 else none) = none
        rw [if_neg (by simp [hv])])]
      exact ihr

/-- C4 (amended): after any sequence of puts with pairwise-distinct keys into
bucket `b` starting from the empty store, `list(b)` returns exactly the keys
that were put with an EMPTY version id and whose bytes do not contain the
`"__"` substring, in put order. Keys put with a non-empty version id are
absent: `list` hex-decodes the whole filename `hex(key) ++ "__" ++ vid`,
which always fails, so versioned entries are skipped. -/
theorem c4_list_unversioned (b : Bytes) (items : List (Bytes × Bytes × Bytes))
    (hb : ∀ it ∈ items, ∀ c ∈ it.1, c < 256)
    (hnd : (items.map Prod.fst).Nodup) :
    listOp (items.foldl (fun st it => putOp st b it.1 it.2.1 it.2.2) []) b =
      items.filterMap (fun it =>
        if it.2.2.isEmpty && !(hasDunder it.1) then some it.1 else none) := by
  have hshape := putAll_shape b items [] (by simpa using hb) (by simpa using hnd)
  simp only [List.map_nil, List.nil_append] at hshape
  rw [hshape]
  exact listOp_map b items hb

/-- C4 counterexample: one versioned put of key `"k"` into bucket `"b"`;
the key exists in the store, yet `list("b")` is empty, so `list` does not
return the set of put keys. -/
theorem c4_counterexample :
    listOp (putOp [] [98] [107] [100] [49]) [98] = [] ∧
      existsOp (putOp [] [98] [107] [100] [49]) [98] [107] = true := by
  decide

/-- C4 witness: three distinct keys — `"k"` unversioned, `"l"` versioned,
`"__"` unversioned — yield `list = ["k"]`: the versioned key and the key
containing the delimiter are both skipped. -/
theorem c4_witness :
    listOp (([([107], [1], []), ([108], [2], [49]), ([95, 95], [3], [])] :
        List (Bytes × Bytes × Bytes)).foldl
      (fun st it => putOp st [98] it.1 it.2.1 it.2.2) []) [98] = [[107]] := by
  have h := c4_list_unversioned [98]
    [([107], [1], []), ([108], [2], [49]), ([95, 95], [3], [])]
    (by decide) (by decide)
  rw [h]
  decide

end Store

namespace StaticIx

open Fluxor

theorem capAux_spec (target : Nat) :
    ∀ fuel i, target ≤ 2 ^ (i + fuel) → (∀ j < i, 2 ^ j < target) →
    ∃ k, capAux target fuel (2 ^ i) = 2 ^ k ∧ target ≤ 2 ^ k ∧ ∀ j < k, 2 ^ j < target := by
  intro fuel
  induction fuel with
  | zero =>
    intro i hle hlt
    exact ⟨i, rfl, by simpa using hle, hlt⟩
  | succ fuel ih =>
    intro i hle hlt
    simp only [capAux]
    by_cases hc : 2 ^ i < target
    · rw [if_pos hc]
      have h2 : (2 : Nat) ^ i * 2 = 2 ^ (i + 1) := (pow_succ 2 i).symm
      rw [h2]
      apply ih (i + 1)
      · rw [show i + 1 + fuel = i + (fuel + 1) by omega]
        exact hle
      · intro j hj
        rcases Nat.lt_or_ge j i with h | h
        · exact hlt j h
        · have : j = i := by omega
          rw [this]
          exact hc
    · rw [if_neg hc]
      exact ⟨i, rfl, by omega, hlt⟩

theorem computeCapacity_spec (n : Nat) :
    ∃ k, computeCapacity n = 2 ^ k ∧ n * 2 ≤ 2 ^ k ∧ ∀ j < k, 2 ^ j < n * 2 := by
  have h := capAux_spec (n * 2) (n * 2 + 1) 0 ?_ (by omega)
  · simpa [computeCapacity] using h
  · have h1 : n * 2 < 2 ^ (n * 2) := Nat.lt_two_pow (n * 2)
    have h2 : (2 : Nat) ^ (n * 2) ≤ 2 ^ (0 + (n * 2 + 1)) :=
      Nat.pow_le_pow_right (by omega) (by omega)
    omega

theorem computeCapacity_ge (n : Nat) : 2 * n ≤ computeCapacity n := by
  rcases computeCapacity_spec n with ⟨k, hk, hle, _⟩
  omega

theorem computeCapacity_gt (n : Nat) : n < computeCapacity n := by
  rcases computeCapacity_spec n with ⟨k, hk, hle, _⟩
  have hpos : 0 < (2 : Nat) ^ k := Nat.pos_pow_of_pos k (by omega)
  omega

theorem computeCapacity_min (n : Nat) :
    ∀ c, (∃ k, c = 2 ^ k) → 2 * n ≤ c → computeCapacity n ≤ c := by
  intro c hc hle
  rcases computeCapacity_spec n with ⟨k, hk, _, hmin⟩
  rcases hc with ⟨m, hm⟩
  rcases Nat.lt_or_ge m k with h | h
  · have := hmin m h
    omega
  · rw [hk, hm]
    exact Nat.pow_le_pow_right (by omega) h

theorem probe_cover (cap i start : Nat) (hi : i < cap) (hs : start < cap) :
    ∃ j < cap, (start + j) % cap = i := by
  rcases Nat.lt_or_ge i start with h | h
  · refine ⟨cap + i - start, by omega, ?_⟩
    rw [show start + (cap + i - start) = cap + i by omega, Nat.add_mod_left]
    exact Nat.mod_eq_of_lt hi
  · refine ⟨i - start, by omega, ?_⟩
    rw [show start + (i - start) = i by omega]
    exact Nat.mod_eq_of_lt hi

theorem exists_empty_slot :
    ∀ es : List (Option Entry), occCount es < es.length →
    ∃ i < es.length, es.getD i none = none := by
  intro es
  induction es with
  | nil => intro h; simp [occCount] at h
  | cons o rest ih =>
    intro h
    cases o with
    | none => exact ⟨0, by simp, rfl⟩
    | some e =>
      have hr : occCount rest < rest.length := by
        simp only [occCount, List.countP_cons, Option.isSome_some, if_pos, List.length_cons] at h
        simpa [occCount] using by omega
      rcases ih hr with ⟨i, hi, he⟩
      exact ⟨i + 1, by simpa using hi, by simpa using he⟩

theorem getD_set_self (v : Option Entry) :
    ∀ (es : List (Option Entry)) (p : Nat), p < es.length → (es.set p v).getD p none = v := by
  intro es
  induction es with
  | nil => intro p hp; simp at hp
  | cons o rest ih =>
    intro p hp
    cases p with
    | zero => rfl
    | succ p =>
      simp only [List.set_cons_succ, List.getD_cons_succ]
      exact ih p (by simpa using hp)

theorem getD_set_ne (v : Option Entry) :
    ∀ (es : List (Option Entry)) (p q : Nat), p ≠ q →
    (es.set p v).getD q none = es.getD q none := by
  intro es
  induction es with
  | nil => intro p q _; simp [List.getD]
  | cons o rest ih =>
    intro p q hne
    cases p with
    | zero =>
      cases q with
      | zero => exact absurd rfl hne
      | succ q => rfl
    | succ p =>
      cases q with
      | zero => rfl
      | succ q =>
        simp only [List.set_cons_succ, List.getD_cons_succ]
        exact ih p q (by omega)

theorem occCount_set (e : Entry) :
    ∀ (es : List (Option Entry)) (p : Nat), es.getD p none = none → p < es.length →
    occCount (es.set p (some e)) = occCount es + 1 := by
  intro es
  induction es with
  | nil => intro p _ hp; simp at hp
  | cons o rest ih =>
    intro p hp hlen
    cases p with
    | zero =>
      have : o = none := hp
      subst this
      simp [occCount, List.countP_cons]
    | succ p =>
      simp only [List.set_cons_succ, occCount, List.countP_cons]
      have := ih p hp (by simpa using hlen)
      simp only [occCount] at this
      omega

theorem insertAux_spec {K : Nat} (cap mask : Nat) (hcap : cap = 2 ^ K) (hm : mask = cap - 1)
    (e : Entry) (es : List (Option Entry)) :
    ∀ fuel idx es2, idx < cap → insertAux mask e es fuel idx = some es2 →
    ∃ d < fuel, es.getD ((idx + d) % cap) none = none ∧
      (∀ j < d, (es.getD ((idx + j) % cap) none).isSome = true) ∧
      es2 = es.set ((idx + d) % cap) (some e) := by
  have hpos : 0 < cap := by rw [hcap]; exact Nat.pos_pow_of_pos K (by omega)
  have hmask : ∀ x : Nat, x &&& mask = x % cap := by
    intro x
    rw [hm, hcap]
    exact Nat.and_pow_two_sub_one_eq_mod x K
  intro fuel
  induction fuel with
  | zero =>
    intro idx es2 _ h
    simp [insertAux] at h
  | succ fuel ih =>
    intro idx es2 hidx h
    have hshift : ∀ j, ((idx + 1) % cap + j) % cap = (idx + (j + 1)) % cap := by
      intro j
      rw [Nat.mod_add_mod]
      congr 1
      omega
    simp only [insertAux] at h
    cases hslot : es.getD idx none with
    | none =>
      rw [hslot] at h
      simp only [Option.some.injEq] at h
      refine ⟨0, by omega, ?_, ?_, ?_⟩
      · rw [Nat.add_zero, Nat.mod_eq_of_lt hidx]
        exact hslot
      · intro j hj
        omega
      · rw [Nat.add_zero, Nat.mod_eq_of_lt hidx]
        exact h.symm
    | some e0 =>
      rw [hslot, hmask] at h
      have hidx2 : (idx + 1) % cap < cap := Nat.mod_lt _ hpos
      rcases ih ((idx + 1) % cap) es2 hidx2 h with ⟨d, hd, hempty, hpre, heq⟩
      refine ⟨d + 1, by omega, ?_, ?_, ?_⟩
      · rw [← hshift d]
        exact hempty
      · intro j hj
        cases j with
        | zero =>
          rw [Nat.add_zero, Nat.mod_eq_of_lt hidx, hslot]
          rfl
        | succ j =>
          rw [← hshift j]
          exact hpre j (by omega)
      · rw [← hshift d]
        exact heq

theorem findAux_step_none (mask : Nat) (q : Bytes) (h32 : Nat) (es : List (Option Entry))
    (fuel idx : Nat) (h : es.getD idx none = none) :
    findAux mask q h32 es (fuel + 1) idx = some none := by
  simp only [findAux]
  rw [h]

theorem findAux_step_some (mask : Nat) (q : Bytes) (h32 : Nat) (es : List (Option Entry))
    (fuel idx : Nat) (e0 : Entry) (h : es.getD idx none = some e0) :
    findAux mask q h32 es (fuel + 1) idx =
      if (e0.hash32 == h32 && e0.keyLen == q.length && e0.key == q) = true then some (some e0)
      else findAux mask q h32 es fuel ((idx + 1) &&& mask) := by
  simp only [findAux]
  rw [h]

theorem findAux_isSome {K : Nat} (cap mask : Nat) (hcap : cap = 2 ^ K) (hm : mask = cap - 1)
    (q : Bytes) (h32 : Nat) (es : List (Option Entry)) :
    ∀ fuel idx, idx < cap →
    (∃ j < fuel, es.getD ((idx + j) % cap) none = none) →
    (findAux mask q h32 es fuel idx).isSome = true := by
  have hpos : 0 < cap := by rw [hcap]; exact Nat.pos_pow_of_pos K (by omega)
  have hmask : ∀ x : Nat, x &&& mask = x % cap := by
    intro x
    rw [hm, hcap]
    exact Nat.and_pow_two_sub_one_eq_mod x K
  intro fuel
  induction fuel with
  | zero =>
    intro idx _ h
    rcases h with ⟨j, hj, _⟩
    omega
  | succ fuel ih =>
    intro idx hidx h
    have hshift : ∀ j, ((idx + 1) % cap + j) % cap = (idx + (j + 1)) % cap := by
      intro j
      rw [Nat.mod_add_mod]
      congr 1
      omega
    cases hslot : es.getD idx none with
    | none => rw [findAux_step_none mask q h32 es fuel idx hslot]; rfl
    | some e0 =>
      rw [findAux_step_some mask q h32 es fuel idx e0 hslot]
      by_cases hcond : (e0.hash32 == h32 && e0.keyLen == List.length q && e0.key == q) = true
      · rw [if_pos hcond]
        rfl
      · rw [if_neg hcond, hmask]
        apply ih ((idx + 1) % cap) (Nat.mod_lt _ hpos)
        rcases h with ⟨j, hj, hempty⟩
        cases j with
        | zero =>
          rw [Nat.add_zero, Nat.mod_eq_of_lt hidx, hslot] at hempty
          exact absurd hempty (by simp)
        | succ j =>
          refine ⟨j, by omega, ?_⟩
          rw [hshift j]
          exact hempty

theorem findAux_match {K : Nat} (cap mask : Nat) (hcap : cap = 2 ^ K) (hm : mask = cap - 1)
    (q : Bytes) (h32 : Nat) (es : List (Option Entry)) :
    ∀ fuel idx e, idx < cap → findAux mask q h32 es fuel idx = some (some e) →
    (∃ i < cap, es.getD i none = some e) ∧ e.key = q ∧ e.keyLen = q.length ∧
      e.hash32 = h32 := by
  have hpos : 0 < cap := by rw [hcap]; exact Nat.pos_pow_of_pos K (by omega)
  have hmask : ∀ x : Nat, x &&& mask = x % cap := by
    intro x
    rw [hm, hcap]
    exact Nat.and_pow_two_sub_one_eq_mod x K
  intro fuel
  induction fuel with
  | zero =>
    intro idx e _ h
    simp [findAux] at h
  | succ fuel ih =>
    intro idx e hidx h
    cases hslot : es.getD idx none with
    | none =>
      rw [findAux_step_none mask q h32 es fuel idx hslot] at h
      simp at h
    | some e0 =>
      rw [findAux_step_some mask q h32 es fuel idx e0 hslot] at h
      by_cases hcond : (e0.hash32 == h32 && e0.keyLen == List.length q && e0.key == q) = true
      · rw [if_pos hcond] at h
        simp only [Option.some.injEq] at h
        subst h
        simp only [Bool.and_eq_true, beq_iff_eq] at hcond
        exact ⟨⟨idx, hidx, hslot⟩, hcond.2, hcond.1.2, hcond.1.1⟩
      · rw [if_neg hcond, hmask] at h
        exact ih ((idx + 1) % cap) e (Nat.mod_lt _ hpos) h

theorem findAux_found {K : Nat} (cap mask : Nat) (hcap : cap = 2 ^ K) (hm : mask = cap - 1)
    (q : Bytes) (h32 : Nat) (es : List (Option Entry)) (E : Entry)
    (hh : E.hash32 = h32) (hkl : E.keyLen = q.length) (hkey : E.key = q) :
    ∀ d fuel idx, d < fuel → idx < cap →
    es.getD ((idx + d) % cap) none = some E →
    (∀ j < d, (es.getD ((idx + j) % cap) none).isSome = true) →
    ∃ e, findAux mask q h32 es fuel idx = some (some e) ∧ e.key = q := by
  have hpos : 0 < cap := by rw [hcap]; exact Nat.pos_pow_of_pos K (by omega)
  have hmask : ∀ x : Nat, x &&& mask = x % cap := by
    intro x
    rw [hm, hcap]
    exact Nat.and_pow_two_sub_one_eq_mod x K
  intro d
  induction d with
  | zero =>
    intro fuel idx hfuel hidx hslot _
    cases fuel with
    | zero => omega
    | succ fuel =>
      rw [Nat.add_zero, Nat.mod_eq_of_lt hidx] at hslot
      refine ⟨E, ?_, hkey⟩
      rw [findAux_step_some mask q h32 es fuel idx E hslot]
      rw [if_pos (by simp [hh, hkl, hkey])]
  | succ d ih =>
    intro fuel idx hfuel hidx hslot hpre
    cases fuel with
    | zero => omega
    | succ fuel =>
      have hshift : ∀ j, ((idx + 1) % cap + j) % cap = (idx + (j + 1)) % cap := by
        intro j
        rw [Nat.mod_add_mod]
        congr 1
        omega
      have h0 : (es.getD idx none).isSome = true := by
        have := hpre 0 (by omega)
        rw [Nat.add_zero, Nat.mod_eq_of_lt hidx] at this
        exact this
      cases hslot0 : es.getD idx none with
      | none =>
        rw [hslot0] at h0
        simp at h0
      | some e0 =>
      rw [findAux_step_some mask q h32 es fuel idx e0 hslot0]
      by_cases hcond : (e0.hash32 == h32 && e0.keyLen == List.length q && e0.key == q) = true
      · rw [if_pos hcond]
        refine ⟨e0, rfl, ?_⟩
        simp only [Bool.and_eq_true, beq_iff_eq] at hcond
        exact hcond.2
      · rw [if_neg hcond, hmask]
        apply ih fuel ((idx + 1) % cap) (by omega) (Nat.mod_lt _ hpos)
        · rw [hshift d]
          exact hslot
        · intro j hj
          rw [hshift j]
          exact hpre (j + 1) (by omega)

theorem insertAux_step_none (mask : Nat) (e : Entry) (es : List (Option Entry))
    (fuel idx : Nat) (h : es.getD idx none = none) :
    insertAux mask e es (fuel + 1) idx = some (es.set idx (some e)) := by
  simp only [insertAux]
  rw [h]

theorem insertAux_step_some (mask : Nat) (e : Entry) (es : List (Option Entry))
    (fuel idx : Nat) (e0 : Entry) (h : es.getD idx none = some e0) :
    insertAux mask e es (fuel + 1) idx = insertAux mask e es fuel ((idx + 1) &&& mask) := by
  simp only [insertAux]
  rw [h]

theorem insertAux_isSome {K : Nat} (cap mask : Nat) (hcap : cap = 2 ^ K) (hm : mask = cap - 1)
    (e : Entry) (es : List (Option Entry)) :
    ∀ fuel idx, idx < cap →
    (∃ j < fuel, es.getD ((idx + j) % cap) none = none) →
    (insertAux mask e es fuel idx).isSome = true := by
  have hpos : 0 < cap := by rw [hcap]; exact Nat.pos_pow_of_pos K (by omega)
  have hmask : ∀ x : Nat, x &&& mask = x % cap := by
    intro x
    rw [hm, hcap]
    exact Nat.and_pow_two_sub_one_eq_mod x K
  intro fuel
  induction fuel with
  | zero =>
    intro idx _ h
    rcases h with ⟨j, hj, _⟩
    omega
  | succ fuel ih =>
    intro idx hidx h
    have hshift : ∀ j, ((idx + 1) % cap + j) % cap = (idx + (j + 1)) % cap := by
      intro j
      rw [Nat.mod_add_mod]
      congr 1
      omega
    cases hslot : es.getD idx none with
    | none => rw [insertAux_step_none mask e es fuel idx hslot]; rfl
    | some e0 =>
      rw [insertAux_step_some mask e es fuel idx e0 hslot, hmask]
      apply ih ((idx + 1) % cap) (Nat.mod_lt _ hpos)
      rcases h with ⟨j, hj, hempty⟩
      cases j with
      | zero =>
        rw [Nat.add_zero, Nat.mod_eq_of_lt hidx, hslot] at hempty
        exact absurd hempty (by simp)
      | succ j =>
        refine ⟨j, by omega, ?_⟩
        rw [hshift j]
        exact hempty

theorem insertOp_inv {KK : Nat} {t : Table} {done : List (Bytes × Nat × Nat)}
    (hinv : TInv KK t done) (k : Bytes) (sz off : Nat)
    (hroom : done.length < 2 ^ KK) :
    ∃ t2, insertOp t k sz off = some t2 ∧ TInv KK t2 (done ++ [(k, sz, off)]) := by
  rcases hinv with ⟨hcap, hmk, hlen, hocc, hmem, hfound⟩
  have hpos : 0 < t.capacity := by rw [hcap]; exact Nat.pos_pow_of_pos KK (by omega)
  have hmask : ∀ x : Nat, x &&& t.mask = x % t.capacity := by
    intro x
    rw [hmk, hcap]
    exact Nat.and_pow_two_sub_one_eq_mod x KK
  have hhome : fnv1a k &&& t.mask = fnv1a k % t.capacity := hmask (fnv1a k)
  have hhlt : fnv1a k % t.capacity < t.capacity := Nat.mod_lt _ hpos
  have hocclt : occCount t.entries < t.entries.length := by
    rw [hlen, hcap]
    omega
  rcases exists_empty_slot t.entries hocclt with ⟨i, hi, hempty⟩
  rw [hlen] at hi
  rcases probe_cover t.capacity i (fnv1a k % t.capacity) hi hhlt with ⟨j, hj, hcover⟩
  have hsome : (insertAux t.mask ⟨k, k.length, fnv1a k % 2 ^ 32, sz, off⟩ t.entries
      t.capacity (fnv1a k &&& t.mask)).isSome = true := by
    rw [hhome]
    apply insertAux_isSome t.capacity t.mask hcap hmk _ t.entries t.capacity _ hhlt
    exact ⟨j, hj, by rw [hcover]; exact hempty⟩
  rcases Option.isSome_iff_exists.mp hsome with ⟨es2, heq⟩
  rcases insertAux_spec t.capacity t.mask hcap hmk _ t.entries t.capacity _ es2
      (by rw [hhome]; exact hhlt) heq with ⟨d, hd, hempty2, hpre, hes2⟩
  rw [hhome] at hempty2 hpre hes2
  have hplt : (fnv1a k % t.capacity + d) % t.capacity < t.entries.length := by
    rw [hlen]
    exact Nat.mod_lt _ hpos
  have hpres : ∀ i2, (t.entries.getD i2 none).isSome = true →
      ((es2 : List (Option Entry)).getD i2 none).isSome = true := by
    intro i2 hi2
    rw [hes2]
    by_cases hip : (fnv1a k % t.capacity + d) % t.capacity = i2
    · rw [← hip, getD_set_self _ t.entries _ hplt]
      rfl
    · rw [getD_set_ne _ t.entries _ _ hip]
      exact hi2
  refine ⟨⟨t.capacity, t.mask, es2⟩, ?_, hcap, hmk, ?_, ?_, ?_, ?_⟩
  · show (insertAux t.mask ⟨k, k.length, fnv1a k % 2 ^ 32, sz, off⟩ t.entries
      t.capacity (fnv1a k &&& t.mask)).map _ = _
    rw [heq]
    rfl
  · show es2.length = t.capacity
    rw [hes2, List.length_set, hlen]
  · show occCount es2 = (done ++ [(k, sz, off)]).length
    rw [hes2, occCount_set _ t.entries _ hempty2 hplt, hocc]
    simp
  · intro o ho e heo
    rw [hes2] at ho
    rcases List.mem_or_eq_of_mem_set ho with h1 | h1
    · rcases hmem o h1 e heo with ⟨r, hr, her⟩
      exact ⟨r, by simp [hr], her⟩
    · rw [h1] at heo
      refine ⟨(k, sz, off), by simp, ?_⟩
      injection heo.symm
  · intro r hr
    rcases List.mem_append.mp hr with h1 | h1
    · rcases hfound r h1 with ⟨d2, hd2, hslot2, hpre2⟩
      refine ⟨d2, hd2, ?_, ?_⟩
      · show es2.getD _ none = _
        rw [hes2, getD_set_ne]
        · exact hslot2
        · intro hip
          rw [hip, hslot2] at hempty2
          exact Option.noConfusion hempty2
      · intro j2 hj2
        exact hpres _ (hpre2 j2 hj2)
    · have hrk : r = (k, sz, off) := by simpa using h1
      subst hrk
      refine ⟨d, hd, ?_, ?_⟩
      · show es2.getD _ none = _
        rw [hes2, getD_set_self _ t.entries _ hplt]
        rfl
      · intro j2 hj2
        exact hpres _ (hpre j2 hj2)

theorem buildAux_inv {KK : Nat} :
    ∀ (l : List (Bytes × Nat × Nat)) (t : Table) (done : List (Bytes × Nat × Nat)),
    TInv KK t done → done.length + l.length ≤ 2 ^ KK →
    ∃ t2, buildAux t (l.map (fun r => (some r.1, r.2.1, r.2.2))) = BuildRes.ok t2 ∧
      TInv KK t2 (done ++ l) := by
  intro l
  induction l with
  | nil =>
    intro t done hinv _
    exact ⟨t, rfl, by simpa using hinv⟩
  | cons r rest ih =>
    intro t done hinv hroom
    rcases insertOp_inv hinv r.1 r.2.1 r.2.2 (by simp at hroom; omega) with ⟨t2, hop, hinv2⟩
    rcases ih t2 (done ++ [r]) (by simpa using hinv2) (by simp at hroom ⊢; omega)
      with ⟨t3, hb, hinv3⟩
    refine ⟨t3, ?_, ?_⟩
    · simp only [List.map_cons, buildAux, hop]
      exact hb
    · rw [show done ++ r :: rest = (done ++ [r]) ++ rest by simp]
      exact hinv3

theorem copyKeys_all_some (cap : Nat) :
    ∀ (rs : List PBlob) (off : Nat), off + sumCost rs ≤ cap →
    copyKeys cap rs off = rs.map (fun b => (some b.key, b.size, b.offset)) := by
  intro rs
  induction rs with
  | nil => intro off _; rfl
  | cons b rest ih =>
    intro off hle
    have hsum : sumCost (b :: rest) = (b.key.length + 1) + sumCost rest := by
      simp [sumCost]
    rw [hsum] at hle
    simp only [copyKeys, List.map_cons]
    rw [if_neg (by omega)]
    rw [ih (off + b.key.length + 1) (by omega)]

theorem copyKeys_length (cap : Nat) :
    ∀ (rs : List PBlob) (off : Nat), (copyKeys cap rs off).length = rs.length := by
  intro rs
  induction rs with
  | nil => intro off; rfl
  | cons b rest ih =>
    intro off
    simp only [copyKeys, List.length_cons, ih]

theorem copyKeys_mem (cap : Nat) :
    ∀ (rs : List PBlob) (off : Nat), ∀ x ∈ copyKeys cap rs off, ∀ k sz o2,
    x = (some k, sz, o2) → ∃ r ∈ rs, k = r.key ∧ sz = r.size ∧ o2 = r.offset := by
  intro rs
  induction rs with
  | nil => intro off x hx; simp [copyKeys] at hx
  | cons b rest ih =>
    intro off x hx k sz o2 hxeq
    simp only [copyKeys, List.mem_cons] at hx
    rcases hx with h1 | h1
    · rw [hxeq] at h1
      by_cases hc : off + b.key.length + 1 > cap
      · rw [if_pos hc] at h1
        exact absurd (congrArg Prod.fst h1) (by simp)
      · rw [if_neg hc] at h1
        have h2 := congrArg Prod.fst h1
        have h3 := congrArg (fun p => p.2.1) h1
        have h4 := congrArg (fun p => p.2.2) h1
        simp at h2 h3 h4
        exact ⟨b, by simp, h2, h3, h4⟩
    · rcases ih (off + b.key.length + 1) x h1 k sz o2 hxeq with ⟨r, hr, he⟩
      exact ⟨r, by simp [hr], he⟩

theorem occCount_replicate (n : Nat) : occCount (List.replicate n none) = 0 := by
  induction n with
  | zero => rfl
  | succ n ih =>
    rw [List.replicate]
    simp only [occCount, List.countP_cons] at ih ⊢
    simp [ih]

theorem mkTable_inv (n : Nat) :
    ∃ KK, TInv KK (mkTable n) [] ∧ 2 ^ KK = computeCapacity n := by
  rcases computeCapacity_spec n with ⟨k, hk, _, _⟩
  refine ⟨k, ⟨?_, rfl, ?_, ?_, ?_, ?_⟩, hk.symm⟩
  · exact hk
  · show (List.replicate (computeCapacity n) none).length = _
    simp [mkTable]
  · show occCount (List.replicate (computeCapacity n) none) = 0
    exact occCount_replicate _
  · intro o ho e heo
    have := List.eq_of_mem_replicate ho
    rw [this] at heo
    exact Option.noConfusion heo
  · intro r hr
    simp at hr

theorem build_ok (rs : List PBlob) (harena : sumCost rs ≤ arenaCapacity rs.length) :
    ∃ KK t, build rs = BuildRes.ok t ∧ TInv KK t (trips rs) ∧
      t.capacity = computeCapacity rs.length := by
  unfold build
  rw [copyKeys_all_some _ rs 0 (by omega)]
  rcases mkTable_inv rs.length with ⟨KK, hinv, hcap2⟩
  have hmap : rs.map (fun b => (some b.key, b.size, b.offset)) =
      (trips rs).map (fun r => (some r.1, r.2.1, r.2.2)) := by
    rw [trips, List.map_map]
    rfl
  rw [hmap]
  have hlen : (trips rs).length = rs.length := by simp [trips]
  rcases buildAux_inv (trips rs) (mkTable rs.length) [] hinv
    (by rw [hlen, hcap2]; simpa using Nat.le_of_lt (computeCapacity_gt rs.length))
    with ⟨t2, hb, hinv2⟩
  refine ⟨KK, t2, hb, by simpa using hinv2, ?_⟩
  rcases hinv2 with ⟨hc, _⟩
  rw [hc, hcap2]

theorem getD_mem_of_some :
    ∀ (es : List (Option Entry)) (i : Nat) (e : Entry),
    es.getD i none = some e → some e ∈ es := by
  intro es
  induction es with
  | nil => intro i e h; simp [List.getD] at h
  | cons o rest ih =>
    intro i e h
    cases i with
    | zero =>
      rw [List.getD_cons_zero] at h
      rw [h]
      exact List.mem_cons_self _ _
    | succ i =>
      rw [List.getD_cons_succ] at h
      exact List.mem_cons_of_mem _ (ih i e h)

theorem buildAux_ok_count {KK : Nat} (P : Entry → Prop) :
    ∀ (l : List (Option Bytes × Nat × Nat)) (t t2 : Table) (n : Nat),
    t.capacity = 2 ^ KK → t.mask = t.capacity - 1 → t.entries.length = t.capacity →
    occCount t.entries = n →
    (∀ o ∈ t.entries, ∀ e, o = some e → P e) →
    (∀ x ∈ l, ∀ k sz off, x = ((some k : Option Bytes), sz, off) → P (mkEntry k sz off)) →
    buildAux t l = BuildRes.ok t2 →
    t2.capacity = t.capacity ∧ t2.mask = t.mask ∧ t2.entries.length = t.capacity ∧
      occCount t2.entries = n + l.length ∧
      (∀ o ∈ t2.entries, ∀ e, o = some e → P e) := by
  intro l
  induction l with
  | nil =>
    intro t t2 n hcap hmk hlen hocc hmem _ hb
    have ht : t = t2 := by
      simpa [buildAux] using hb
    rw [← ht]
    exact ⟨rfl, rfl, hlen, by simpa using hocc, hmem⟩
  | cons x rest ih =>
    intro t t2 n hcap hmk hlen hocc hmem hP hb
    obtain ⟨xk, xsz, xoff⟩ := x
    cases xk with
    | none => simp [buildAux] at hb
    | some k =>
      have hpos : 0 < t.capacity := by
        rw [hcap]
        exact Nat.pos_pow_of_pos KK (by omega)
      have hmask : fnv1a k &&& t.mask = fnv1a k % t.capacity := by
        rw [hmk, hcap]
        exact Nat.and_pow_two_sub_one_eq_mod (fnv1a k) KK
      simp only [buildAux] at hb
      cases hop : insertOp t k xsz xoff with
      | none =>
        rw [hop] at hb
        simp at hb
      | some tm =>
        rw [hop] at hb
        rcases Option.map_eq_some'.mp hop with ⟨es2, hins, htm⟩
        rcases insertAux_spec t.capacity t.mask hcap hmk _ t.entries t.capacity _ es2
            (by rw [hmask]; exact Nat.mod_lt _ hpos) hins with ⟨d, hd, hempty, _, hes2⟩
        rw [hmask] at hempty hes2
        have hplt : (fnv1a k % t.capacity + d) % t.capacity < t.entries.length := by
          rw [hlen]
          exact Nat.mod_lt _ hpos
        have h1 := ih tm t2 (n + 1)
          (by rw [← htm]; exact hcap)
          (by rw [← htm]; exact hmk)
          (by rw [← htm]; show es2.length = _; rw [hes2, List.length_set, hlen])
          (by
            rw [← htm]
            show occCount es2 = n + 1
            rw [hes2, occCount_set _ t.entries _ hempty hplt, hocc])
          (by
            rw [← htm]
            intro o ho e heo
            show P e
            rw [hes2] at ho
            rcases List.mem_or_eq_of_mem_set ho with h2 | h2
            · exact hmem o h2 e heo
            · rw [h2] at heo
              have he : e = mkEntry k xsz xoff := by
                injection heo.symm
              rw [he]
              exact hP _ (List.mem_cons_self _ _) k xsz xoff rfl)
          (fun y hy => hP y (List.mem_cons_of_mem _ hy))
          hb
        rw [← htm] at h1
        refine ⟨h1.1, h1.2.1, h1.2.2.1, ?_, h1.2.2.2.2⟩
        rw [h1.2.2.2.1]
        simp
        omega

/-- C10: after any successful build of the static hash map (exactly one
insertion per ingested record), every `find` call terminates: the number of
occupied slots equals N, which is strictly below the capacity, so the linear
probe from any home slot reaches an empty slot or a matching entry within
`capacity` steps. -/
theorem c10_find_terminates (rs : List PBlob) (t : Table) (q : Bytes)
    (hok : build rs = BuildRes.ok t) : (findOp t q).isSome = true := by
  unfold build at hok
  rcases mkTable_inv rs.length with ⟨KK, hinv, hcap2⟩
  rcases hinv with ⟨hcap, hmk, hlen, hocc, _, _⟩
  have h1 := buildAux_ok_count (fun _ => True) (copyKeys (arenaCapacity rs.length) rs 0)
    (mkTable rs.length) t 0 hcap hmk hlen hocc (fun _ _ _ _ => trivial)
    (fun _ _ _ _ _ _ => trivial) hok
  rcases h1 with ⟨hc1, hm1, hl1, ho1, _⟩
  have hcapt : t.capacity = 2 ^ KK := by rw [hc1, hcap]
  have hpos : 0 < t.capacity := by
    rw [hcapt]
    exact Nat.pos_pow_of_pos KK (by omega)
  have hmkt : t.mask = t.capacity - 1 := by
    rw [hm1, hmk, hcap, hc1, hcap]
  have hlent : t.entries.length = t.capacity := by
    rw [hl1, ← hc1]
  have hocct : occCount t.entries < t.capacity := by
    rw [ho1, copyKeys_length, Nat.zero_add]
    have h3 := computeCapacity_gt rs.length
    have h4 : t.capacity = computeCapacity rs.length := by rw [hc1, hcap, hcap2]
    omega
  have hmaskq : fnv1a q &&& t.mask = fnv1a q % t.capacity := by
    rw [hmkt, hcapt]
    exact Nat.and_pow_two_sub_one_eq_mod (fnv1a q) KK
  rcases exists_empty_slot t.entries (by rw [hlent]; exact hocct) with ⟨i, hi, hempty⟩
  rw [hlent] at hi
  rcases probe_cover t.capacity i (fnv1a q % t.capacity) hi (Nat.mod_lt _ hpos)
    with ⟨j, hj, hcover⟩
  unfold findOp
  rw [hmaskq]
  apply findAux_isSome t.capacity t.mask hcapt hmkt q _ t.entries t.capacity _
    (Nat.mod_lt _ hpos)
  exact ⟨j, hj, by rw [hcover]; exact hempty⟩

/-- C10 witness: the pipeline built from the single record `("a", 5, 7)`
yields a capacity-2 table; `find` on the absent key `"z"`, whose home slot is
the occupied slot 1, terminates. -/
theorem c10_witness :
    (findOp ⟨2, 1, [some ⟨[97], 1, 2248273036, 5, 7⟩, none]⟩ [122]).isSome = true :=
  c10_find_terminates [⟨[97], 5, 7⟩] ⟨2, 1, [some ⟨[97], 1, 2248273036, 5, 7⟩, none]⟩
    [122] (by decide)

theorem mapM_eq_map {α β : Type} (f : α → Option β) (g : α → β) :
    ∀ l : List α, (∀ a ∈ l, f a = some (g a)) → l.mapM f = some (l.map g) := by
  intro l
  induction l with
  | nil => intro _; rfl
  | cons a l ih =>
    intro h
    rw [List.mapM_cons, h a (List.mem_cons_self _ _), ih (fun x hx => h x (List.mem_cons_of_mem _ hx))]
    rfl

theorem trips_mem (rs : List PBlob) (r : Bytes × Nat × Nat) (h : r ∈ trips rs) :
    ∃ b ∈ rs, r = (b.key, b.size, b.offset) := by
  simp only [trips, List.mem_map] at h
  rcases h with ⟨b, hb, hbe⟩
  exact ⟨b, hb, hbe.symm⟩

theorem find_of_trips :
    ∀ (rs : List PBlob), (rs.map PBlob.key).Nodup → ∀ (k : Bytes) (sz off : Nat),
    (k, sz, off) ∈ trips rs → rs.find? (fun r => r.key == k) = some ⟨k, sz, off⟩ := by
  intro rs
  induction rs with
  | nil => intro _ k sz off h; simp [trips] at h
  | cons b rest ih =>
    intro hnd k sz off h
    simp only [trips, List.map_cons, List.mem_cons] at h
    rcases h with h1 | h1
    · have hk : b.key = k := (congrArg Prod.fst h1).symm
      rw [List.find?_cons_of_pos _ (by simp [hk])]
      have h2 : b.size = sz := (congrArg (fun p => p.2.1) h1).symm
      have h3 : b.offset = off := (congrArg (fun p => p.2.2) h1).symm
      rw [show (⟨k, sz, off⟩ : PBlob) = b from by rw [← hk, ← h2, ← h3]]
    · have hkin : k ∈ rest.map PBlob.key := by
        rcases trips_mem rest (k, sz, off) h1 with ⟨b2, hb2, he2⟩
        have : k = b2.key := congrArg Prod.fst he2
        rw [this]
        exact List.mem_map_of_mem _ hb2
      have hbne : b.key ≠ k := by
        intro hc
        rw [List.map_cons, List.nodup_cons] at hnd
        exact hnd.1 (by rw [hc]; exact hkin)
      rw [List.find?_cons_of_neg _ (by simp [hbne])]
      exact ih (by rw [List.map_cons, List.nodup_cons] at hnd; exact hnd.2) k sz off h1

/-- C2 (amended): provided the records' keys are pairwise distinct and the
keys (plus one terminator byte each) fit into the arena `main` sizes for N
records, the pipeline answers every query: a query whose key was ingested
outputs exactly the ingested `(size, offset)` pair, any other query outputs
`NOTFOUND`, and the output lines are in query order. Without the arena bound
the pipeline can instead crash before producing output (`c2_counterexample`). -/
theorem c2_static_queries (rs : List PBlob) (qs : List Bytes)
    (hnd : (rs.map PBlob.key).Nodup)
    (harena : sumCost rs ≤ arenaCapacity rs.length) :
    runPipeline rs qs = some (qs.map (expectedAns rs)) := by
  rcases build_ok rs harena with ⟨KK, t, hb, hinv, hcapn⟩
  unfold runPipeline
  rw [hb]
  apply mapM_eq_map
  intro q _
  rcases hinv with ⟨hcap, hmk, hlen, hocc, hmem, hfound⟩
  have hpos : 0 < t.capacity := by
    rw [hcap]
    exact Nat.pos_pow_of_pos KK (by omega)
  have hmaskq : fnv1a q &&& t.mask = fnv1a q % t.capacity := by
    rw [hmk, hcap]
    exact Nat.and_pow_two_sub_one_eq_mod (fnv1a q) KK
  have hocct : occCount t.entries < t.entries.length := by
    rw [hlen, hocc, hcapn]
    have h3 := computeCapacity_gt rs.length
    have h4 : (trips rs).length = rs.length := by simp [trips]
    omega
  cases hfq : rs.find? (fun r => r.key == q) with
  | some r =>
    have hrkey : r.key = q := by
      have := List.find?_some hfq
      simpa using this
    have htr : (r.key, r.size, r.offset) ∈ trips rs := by
      simp only [trips, List.mem_map]
      exact ⟨r, List.mem_of_find?_eq_some hfq, rfl⟩
    rcases hfound _ htr with ⟨d, hd, hslot, hpre⟩
    have hslot2 : t.entries.getD ((fnv1a r.key % t.capacity + d) % t.capacity) none =
        some (mkEntry r.key r.size r.offset) := hslot
    have hpre2 : ∀ j < d,
        (t.entries.getD ((fnv1a r.key % t.capacity + j) % t.capacity) none).isSome = true :=
      hpre
    rw [hrkey] at hslot2 hpre2
    rcases findAux_found t.capacity t.mask hcap hmk q (fnv1a q % 2 ^ 32) t.entries
        (mkEntry q r.size r.offset) rfl rfl rfl
        d t.capacity (fnv1a q % t.capacity) hd (Nat.mod_lt _ hpos)
        hslot2 hpre2 with ⟨e, heq, hek⟩
    rcases findAux_match t.capacity t.mask hcap hmk q (fnv1a q % 2 ^ 32) t.entries
        t.capacity (fnv1a q % t.capacity) e (Nat.mod_lt _ hpos) heq
      with ⟨⟨i, _, hslot_e⟩, hekey, _, _⟩
    rcases hmem _ (getD_mem_of_some t.entries i e hslot_e) e rfl with ⟨r2, hr2, her2⟩
    have hr2k : r2.1 = q := by
      rw [her2] at hekey
      exact hekey
    have hfind2 := find_of_trips rs hnd r2.1 r2.2.1 r2.2.2 (by simpa using hr2)
    rw [hr2k, hfq] at hfind2
    have hreq : r = (⟨r2.1, r2.2.1, r2.2.2⟩ : PBlob) := by
      injection hfind2.symm with hval
      rw [hr2k]
      exact hval.symm
    unfold findOp
    rw [hmaskq, heq]
    show some (Ans.found e.size e.offset) = some (expectedAns rs q)
    rw [expectedAns, hfq, her2, hreq]
    rfl
  | none =>
    have hnotin : ∀ b ∈ rs, b.key ≠ q := by
      intro b hb hc
      have := List.find?_eq_none.mp hfq b hb
      simp [hc] at this
    rcases exists_empty_slot t.entries hocct with ⟨i, hi, hempty⟩
    rw [hlen] at hi
    rcases probe_cover t.capacity i (fnv1a q % t.capacity) hi (Nat.mod_lt _ hpos)
      with ⟨j, hj, hcover⟩
    have hsome : (findAux t.mask q (fnv1a q % 2 ^ 32) t.entries t.capacity
        (fnv1a q % t.capacity)).isSome = true := by
      apply findAux_isSome t.capacity t.mask hcap hmk q _ t.entries t.capacity _
        (Nat.mod_lt _ hpos)
      exact ⟨j, hj, by rw [hcover]; exact hempty⟩
    rcases Option.isSome_iff_exists.mp hsome with ⟨res, hres⟩
    cases res with
    | none =>
      unfold findOp
      rw [hmaskq, hres]
      show some Ans.notfound = some (expectedAns rs q)
      rw [expectedAns, hfq]
    | some e =>
      rcases findAux_match t.capacity t.mask hcap hmk q (fnv1a q % 2 ^ 32) t.entries
          t.capacity (fnv1a q % t.capacity) e (Nat.mod_lt _ hpos) hres
        with ⟨⟨i2, _, hslot_e⟩, hekey, _, _⟩
      rcases hmem _ (getD_mem_of_some t.entries i2 e hslot_e) e rfl with ⟨r2, hr2, her2⟩
      rcases trips_mem rs r2 hr2 with ⟨b2, hb2, hbe2⟩
      exact absurd (by
        rw [← hekey, her2, hbe2]
        rfl : b2.key = q) (hnotin b2 hb2)

/-- C2 witness (spec scenario S5): records `("foo", 10, 100)` and
`("bar", 20, 200)`, queries `foo`, `baz`, `bar` produce
`10 100`, `NOTFOUND`, `20 200` in order. -/
theorem c2_witness :
    runPipeline [⟨[102, 111, 111], 10, 100⟩, ⟨[98, 97, 114], 20, 200⟩]
      [[102, 111, 111], [98, 97, 122], [98, 97, 114]] =
      some [Ans.found 10 100, Ans.notfound, Ans.found 20 200] := by
  have h := c2_static_queries [⟨[102, 111, 111], 10, 100⟩, ⟨[98, 97, 114], 20, 200⟩]
    [[102, 111, 111], [98, 97, 122], [98, 97, 114]] (by decide) (by decide)
  rw [h]
  decide


theorem copyKeys_cons (cap : Nat) (b : PBlob) (rest : List PBlob) (off : Nat) :
    copyKeys cap (b :: rest) off =
      ((if off + b.key.length + 1 > cap then none else some b.key), b.size, b.offset) ::
      copyKeys cap rest (off + b.key.length + 1) := rfl

theorem buildAux_null (t : Table) (sz off : Nat) (rest : List (Option Bytes × Nat × Nat)) :
    buildAux t ((none, sz, off) :: rest) = BuildRes.nullDeref := rfl

theorem runPipeline_null (rs : List PBlob) (qs : List Bytes)
    (h : build rs = BuildRes.nullDeref) : runPipeline rs qs = none := by
  unfold runPipeline
  rw [h]

/-- C2 counterexample: a single well-formed record whose key has
4194344 bytes exhausts the arena (capacity `1 * 40 + 4 MiB = 4194344`,
needed `4194345` bytes); the copied key pointer is null, `hm.insert`
dereferences it, and the pipeline crashes before emitting the (empty)
answer list, so no query list is answered. -/
theorem c2_counterexample :
    runPipeline [⟨List.replicate 4194344 107, 5, 7⟩] [] = none ∧
      ∀ l : List Ans, (none : Option (List Ans)) ≠ some l := by
  constructor
  · apply runPipeline_null
    show buildAux (mkTable 1)
      (copyKeys (arenaCapacity 1) [⟨List.replicate 4194344 107, 5, 7⟩] 0) = BuildRes.nullDeref
    rw [copyKeys_cons]
    rw [show (⟨List.replicate 4194344 107, 5, 7⟩ : PBlob).key = List.replicate 4194344 107
      from rfl]
    rw [List.length_replicate]
    rw [if_pos (by norm_num [arenaCapacity])]
    exact buildAux_null _ _ _ _
  · intro l hc
    exact Option.noConfusion hc

/-- C8: the claim is that a failed arena allocation makes the current
operation fail cleanly with no later step dereferencing the null result. In
`main` the parallel copy loop stores `arena.alloc`'s return value into
`blobs[i].key` with no check, and the build loop passes it to `hm.insert`,
whose `fnv1a(key, keyLen)` reads through it. For the one-record input whose
key is 4194344 bytes (capacity `1 * 40 + 4 MiB = 4194344`, needed `4194345`
bytes), the build reaches that null dereference. -/
theorem c8_null_key_reaches_insert :
    build [⟨List.replicate 4194344 98, 3, 9⟩] = BuildRes.nullDeref := by
  show buildAux (mkTable 1)
    (copyKeys (arenaCapacity 1) [⟨List.replicate 4194344 98, 3, 9⟩] 0) = BuildRes.nullDeref
  rw [copyKeys_cons]
  rw [show (⟨List.replicate 4194344 98, 3, 9⟩ : PBlob).key = List.replicate 4194344 98
    from rfl]
  rw [List.length_replicate]
  rw [if_pos (by norm_num [arenaCapacity])]
  exact buildAux_null _ _ _ _

/-- C9 (amended): the capacity is the smallest power of two that is at least
`2 N`; after a successful build the load factor is at most one half
(`2 * occupied ≤ capacity`, with equality exactly when N is a power of two,
so "strictly below one half" fails — `c9_counterexample`); and every slot is
either empty or holds the entry of an ingested record (no tombstones). -/
theorem c9_capacity_and_load (n : Nat) (rs : List PBlob) (t : Table) :
    (∃ k, computeCapacity n = 2 ^ k) ∧ 2 * n ≤ computeCapacity n ∧
    (∀ c, (∃ k, c = 2 ^ k) → 2 * n ≤ c → computeCapacity n ≤ c) ∧
    (build rs = BuildRes.ok t →
      2 * occCount t.entries ≤ t.capacity ∧
      ∀ o ∈ t.entries, ∀ e, o = some e → ∃ r ∈ rs, e = mkEntry r.key r.size r.offset) := by
  refine ⟨?_, computeCapacity_ge n, computeCapacity_min n, ?_⟩
  · rcases computeCapacity_spec n with ⟨k, hk, _, _⟩
    exact ⟨k, hk⟩
  · intro hok
    unfold build at hok
    rcases mkTable_inv rs.length with ⟨KK, hinv, hcap2⟩
    rcases hinv with ⟨hcap, hmk, hlen, hocc, _, _⟩
    have h1 := buildAux_ok_count (fun e => ∃ r ∈ rs, e = mkEntry r.key r.size r.offset)
      (copyKeys (arenaCapacity rs.length) rs 0) (mkTable rs.length) t 0 hcap hmk hlen hocc
      (by
        intro o ho e heo
        have hn := List.eq_of_mem_replicate ho
        rw [hn] at heo
        exact Option.noConfusion heo)
      (by
        intro x hx k sz off hxeq
        rcases copyKeys_mem _ rs 0 x hx k sz off hxeq with ⟨r, hr, h2, h3, h4⟩
        exact ⟨r, hr, by rw [h2, h3, h4]⟩)
      hok
    rcases h1 with ⟨hc1, _, _, ho1, hm1⟩
    constructor
    · rw [ho1, copyKeys_length, Nat.zero_add, hc1, hcap, hcap2]
      exact computeCapacity_ge rs.length
    · exact hm1

/-- C9 witness: for N = 1 the capacity is a power of two, and after building
from the single record `("c", 1, 2)` the load factor is at most one half. -/
theorem c9_witness :
    (∃ k, computeCapacity 1 = 2 ^ k) ∧
      2 * occCount (⟨2, 1, [some ⟨[99], 1, 2248273906, 1, 2⟩, none]⟩ : Table).entries ≤
        (⟨2, 1, [some ⟨[99], 1, 2248273906, 1, 2⟩, none]⟩ : Table).capacity := by
  have h := c9_capacity_and_load 1 [⟨[99], 1, 2⟩]
    ⟨2, 1, [some ⟨[99], 1, 2248273906, 1, 2⟩, none]⟩
  exact ⟨h.1, (h.2.2.2 (by decide)).1⟩

/-- C9 counterexample: for N = 1 the build succeeds with capacity 2 and one
occupied slot, so the load factor is exactly one half, not strictly below
it. -/
theorem c9_counterexample :
    isOk (build [⟨[97], 5, 7⟩]) = true ∧
      loadUnderHalf (build [⟨[97], 5, 7⟩]) = false := by
  decide
